import Mathlib

/-!
# Verification of the `blocks` collection/reconstruction engine

A shallow embedding of `blocks/core.py` (the `divide` / `assemble` /
`iterate` / `partitioned` pipeline) together with the retry combinator of
`blocks/filesystem/gcs_native_filesystem.py`, and proofs of the frozen
claims about it.

Modelling conventions:
* A pandas `DataFrame` is a `Frame`: a list of column names plus a list of
  rows (each row a list of `Value`s).  Row indices are not modelled (the
  library always resets them with `reset_index(drop=True)` and the spec's
  equalities are stated "up to row index").
* A filesystem path is a `Path`: the list of its `/`-separated segments.
  `os.path.basename` is `List.getLast`, `os.path.dirname` is
  `List.dropLast`; Python's lexicographic sort of path *strings* is
  modelled by sorting on the rendered string `Path.render`.
* The storage listing (`filesystem.ls`) and the table codec (`read_df`)
  are oracles: arbitrary functions supplied as parameters, constrained by
  hypotheses in each theorem, matching the spec's treatment of them as
  external collaborators.
* Machine integers do not occur on the modelled paths; all counting is in
  `Nat`.
-/

namespace Blocks

/-- A cell value of a dataframe.  Numbers are modelled as integers, which
is enough to express `pd.to_numeric` coercion of digit strings; `nan`
stands for pandas' missing-value padding in non-inner joins. -/
inductive Value where
  | str (s : String)
  | num (n : Int)
  | nan
deriving DecidableEq, Repr

/-- A dataframe: column names plus rows (row-major).  Mirrors the pandas
frames flowing through `blocks/core.py`, with the integer row index
dropped (the library resets it on every write). -/
structure Frame where
  cols : List String
  rows : List (List Value)
deriving DecidableEq, Repr

/-- Number of rows, `df.shape[0]` in the source. -/
def Frame.rowCount (f : Frame) : Nat := f.rows.length

/-- Well-formedness of a pandas frame: distinct column names and
rectangular rows (pandas maintains both). -/
def Frame.WF (f : Frame) : Prop :=
  f.cols.Nodup ∧ ∀ r ∈ f.rows, r.length = f.cols.length

/-- A path, as the list of its `/`-separated segments. -/
abbrev Path := List String

/-- Render a path back to the string Python manipulates
(`"/".join(segments)`); this is the key Python sorts and deduplicates
by. -/
def Path.render : Path → String
  | [] => ""
  | [s] => s
  | s :: rest => s ++ "/" ++ Path.render rest

/-- `os.path.basename`, on segment lists. -/
def basenameOf (p : Path) : String := p.getLastD ""

/-- `_rname` from `core.py`: the row-group name of a path is its base
name. -/
def rnameOf (p : Path) : String := basenameOf p

/-- `_cname` from `core.py`: the column-group name of a path is the base
name of its parent directory. -/
def cnameOf (p : Path) : String := basenameOf p.dropLast

/-- `_has_ext` from `core.py`: `os.path.splitext(path)[1] != ""`.
`splitext` takes the suffix after the last dot of the base name, ignoring
any leading dots, so the extension is nonempty iff the base name still
contains a dot once its leading dots are stripped. -/
def hasExt (p : Path) : Bool :=
  ((basenameOf p).toList.dropWhile (· = '.')).contains '.'

/-- `path + "**"` from `_expand`: Python appends the recursive-glob marker
to the path *string* without a separator, so it lands on the last
segment. -/
def globStar (p : Path) : Path := p.dropLast ++ [basenameOf p ++ "**"]

/-- Strict lexicographic comparison of char lists by code point — how
Python compares the strings it sorts. -/
def strLtListB : List Char → List Char → Bool
  | [], [] => false
  | [], _ :: _ => true
  | _ :: _, [] => false
  | a :: as, b :: bs => if a < b then true else if b < a then false else strLtListB as bs

/-- Python's `s <= t` on strings (total order by code point). -/
def strLeB (s t : String) : Bool := !strLtListB t.toList s.toList

/-- Insert into a list sorted by a string key (the inner step of Python's
stable `sorted(...)`). -/
def insertBy {α : Type} (key : α → String) (x : α) : List α → List α
  | [] => [x]
  | y :: ys => if strLeB (key x) (key y) then x :: y :: ys else y :: insertBy key x ys

/-- Stable sort by a string key; models Python's `sorted`, whose key here
is always a path or name string. -/
def sortBy {α : Type} (key : α → String) : List α → List α
  | [] => []
  | x :: xs => insertBy key x (sortBy key xs)

/-- Keep the first element carrying each key, walking left to right with
the set of keys already seen.  Models conversion of a sequence of strings
to a Python `set` (content only — enumeration order of a real `set` is
hash-dependent and is modelled separately where it matters). -/
def dedupByAux {α : Type} (key : α → String) (seen : List String) : List α → List α
  | [] => []
  | x :: xs =>
    if key x ∈ seen then dedupByAux key seen xs
    else x :: dedupByAux key (key x :: seen) xs

/-- Keep the first occurrence of each key (Python `set` content, in
first-occurrence order). -/
def dedupBy {α : Type} (key : α → String) (l : List α) : List α :=
  dedupByAux key [] l

/-- Decidable equality for `Except` results, so that concrete runs of the
model can be checked by `decide`. -/
instance exceptDecEq {ε α : Type} [DecidableEq ε] [DecidableEq α] :
    DecidableEq (Except ε α)
  | .ok a, .ok b =>
    if h : a = b then isTrue (by rw [h])
    else isFalse (fun he => by cases he; exact h rfl)
  | .ok _, .error _ => isFalse (fun he => by cases he)
  | .error _, .ok _ => isFalse (fun he => by cases he)
  | .error e, .error f =>
    if h : e = f then isTrue (by rw [h])
    else isFalse (fun he => by cases he; exact h rfl)

/-- The Python exceptions that the modelled code can raise. -/
inductive PyErr where
  /-- `ValueError("Did not find any files at the path: ...")` in `_collect`. -/
  | notFound
  /-- `KeyError` from `accessed[k]` for a requested cgroup with no files. -/
  | keyError (k : String)
  /-- `IndexError` from `frames[0]` in `_merge_all` on an empty list. -/
  | indexError
  /-- `TypeError` from `reduce` over an empty sequence in `_shared_rgroups`. -/
  | typeError
  /-- `StopIteration` from an exhausted `next(...)` in `iterate`/`partitioned`. -/
  | stopIteration
deriving DecidableEq, Repr

/-- The Grouping of §3: an ordered mapping from column-group name to its
member file paths. -/
abbrev Grouping := List (String × List Path)

/-- `_filter` from `core.py`: keep paths whose cgroup/rgroup names pass
the optional filters. -/
def keepPath (cgroups rgroups : Option (List String)) (p : Path) : Bool :=
  (match cgroups with
   | none => true
   | some cs => cs.contains (cnameOf p)) &&
  (match rgroups with
   | none => true
   | some rs => rs.contains (rnameOf p))

/-- `_filter` from `core.py`. -/
def filterPaths (paths : List Path) (cgroups rgroups : Option (List String)) : List Path :=
  paths.filter (keepPath cgroups rgroups)

/-- One step of `defaultdict(list)` insertion: append `p` to the bucket
for key `c`, creating the bucket at the end if absent (dict preserves
first-insertion key order). -/
def addGrouped (acc : Grouping) (c : String) (p : Path) : Grouping :=
  match acc with
  | [] => [(c, [p])]
  | (c', ps) :: rest =>
    if c' = c then (c', ps ++ [p]) :: rest else (c', ps) :: addGrouped rest c p

/-- `_cgroups` from `core.py`: bucket paths by parent-directory name. -/
def groupCnames (paths : List Path) : Grouping :=
  paths.foldl (fun acc p => addGrouped acc (cnameOf p) p) []

/-- `_expand` from `core.py`: keep extensioned paths, list extensionless
ones as directories via `ls(path + "**")`, then drop extensionless
results and return the sorted set (Python: `sorted(set(...))`, which
deduplicates and sorts the path strings). -/
def expand (ls : Path → List Path) (paths : List Path) : List Path :=
  sortBy Path.render (dedupBy Path.render
    ((paths.flatMap (fun p => if hasExt p then [p] else ls (globStar p))).filter hasExt))

/-- `_access` from `core.py`, modelled for local paths: when
`_get_protocol_path` finds no protocol the bucket's paths are passed
through unchanged.  (Remote staging goes through the retry combinator
modelled by `retryGo` below.) -/
def access (g : Grouping) : Grouping := g

/-- `OrderedDict((k, accessed[k]) for k in cgroups)`: look every key up
(raising `KeyError` on a miss) and collapse duplicate keys to their first
position. -/
def orderedDictOf (keys : List String) (grouped : Grouping) : Except PyErr Grouping :=
  (keys.mapM (fun k =>
    match grouped.lookup k with
    | some ps => Except.ok (k, ps)
    | none => Except.error (PyErr.keyError k)) : Except PyErr Grouping).map (dedupBy Prod.fst)

/-- `_collect` from `core.py`: list, fail on an empty listing, expand,
filter, group, access, then order the buckets by the explicit `cgroups`
sequence or alphabetically. -/
def collect (ls : Path → List Path) (root : Path)
    (cgroups rgroups : Option (List String)) : Except PyErr Grouping :=
  if (ls root).isEmpty then .error .notFound
  else
    let grouped := access (groupCnames (filterPaths (expand ls (ls root)) cgroups rgroups))
    let keys :=
      match cgroups with
      | none => sortBy id (grouped.map Prod.fst)
      | some ks => ks
    orderedDictOf keys grouped

/-- The `merge` / `join_mode` argument of `pd.merge` (`how=`): one of the
four relational modes accepted by the public operations. -/
inductive MergeHow where
  | inner
  | left
  | right
  | outer
deriving DecidableEq, Repr

/-- Position of a column name in a column list. -/
def colIndex (cols : List String) (c : String) : Option Nat := List.indexOf? c cols

/-- The value a row holds for a named column. -/
def cellAt (cols : List String) (r : List Value) (c : String) : Value :=
  match colIndex cols c with
  | some i => r.getD i .nan
  | none => .nan

/-- The shared column names of two frames, in left-frame order — the
implicit join key of `pd.merge(df1, df2, how=...)`. -/
def sharedCols (a b : Frame) : List String := a.cols.filter (fun c => b.cols.contains c)

/-- The right frame's columns that are not shared (appended after the
left frame's columns in the merge result). -/
def rightOnlyCols (a b : Frame) : List String :=
  b.cols.filter (fun c => !a.cols.contains c)

/-- The join-key tuple of a row. -/
def keyOf (cols shared : List String) (r : List Value) : List Value :=
  shared.map (cellAt cols r)

/-- The right-frame rows whose join key matches a left row. -/
def matchRows (a b : Frame) (shared : List String) (r1 : List Value) : List (List Value) :=
  b.rows.filter (fun r2 => keyOf b.cols shared r2 == keyOf a.cols shared r1)

/-- A matched output row: the left row followed by the right row's
non-shared columns. -/
def joinedRow (a b : Frame) (r1 r2 : List Value) : List Value :=
  r1 ++ (rightOnlyCols a b).map (cellAt b.cols r2)

/-- Missing-value padding. -/
def nanRow (cols : List String) : List Value := cols.map (fun _ => Value.nan)

/-- An unmatched right row in a right/outer merge: shared columns take
the right row's values, left-only columns are padding. -/
def unmatchedRight (a b : Frame) (shared : List String) (r2 : List Value) : List Value :=
  a.cols.map (fun c => if shared.contains c then cellAt b.cols r2 c else Value.nan)
    ++ (rightOnlyCols a b).map (cellAt b.cols r2)

/-- `pd.merge(df1, df2, how=merge)`: equijoin on the shared column names.
The result's columns are the left frame's columns followed by the right
frame's non-shared columns (shared names are not duplicated); rows are
emitted left-major for `inner`/`left`/`outer` with unmatched right rows
appended for `outer`, and right-major for `right`. -/
def pdMerge (how : MergeHow) (a b : Frame) : Frame :=
  let shared := sharedCols a b
  let outCols := a.cols ++ rightOnlyCols a b
  match how with
  | .inner =>
    ⟨outCols, a.rows.flatMap (fun r1 => (matchRows a b shared r1).map (joinedRow a b r1))⟩
  | .left =>
    ⟨outCols, a.rows.flatMap (fun r1 =>
      match matchRows a b shared r1 with
      | [] => [r1 ++ nanRow (rightOnlyCols a b)]
      | ms => ms.map (joinedRow a b r1))⟩
  | .right =>
    ⟨outCols, b.rows.flatMap (fun r2 =>
      match a.rows.filter (fun r1 => keyOf a.cols shared r1 == keyOf b.cols shared r2) with
      | [] => [unmatchedRight a b shared r2]
      | ms => ms.map (fun r1 => joinedRow a b r1 r2))⟩
  | .outer =>
    ⟨outCols,
      (a.rows.flatMap (fun r1 =>
        match matchRows a b shared r1 with
        | [] => [r1 ++ nanRow (rightOnlyCols a b)]
        | ms => ms.map (joinedRow a b r1))) ++
      (b.rows.filter (fun r2 => matchRows b a shared r2 == [])).map (unmatchedRight a b shared)⟩

/-- A `ShapeMismatchWarning`: the row counts of a join's two operands. -/
abbrev Warning := Nat × Nat

/-- `_safe_merge` from `core.py`: emit a warning carrying both row counts
when they differ, then merge regardless. -/
def safeMerge (how : MergeHow) (a b : Frame) : List Warning × Frame :=
  ((if a.rowCount = b.rowCount then [] else [(a.rowCount, b.rowCount)]), pdMerge how a b)

/-- `_merge_all` from `core.py`: `frames[0]` (an `IndexError` when the
list is empty) folded left with `_safe_merge`, accumulating the warnings
emitted along the way. -/
def mergeAll (how : MergeHow) : List Frame → Except PyErr (List Warning × Frame)
  | [] => .error .indexError
  | f :: fs =>
    .ok (fs.foldl (fun acc g =>
      let step := safeMerge how acc.2 g
      (acc.1 ++ step.1, step.2)) (([] : List Warning), f))

/-- `pd.concat` over the frames of one column group, which all carry the
same schema: rows are appended in file order under the first frame's
columns. -/
def concatFrames : List Frame → Frame
  | [] => ⟨[], []⟩
  | f :: fs => ⟨f.cols, (f :: fs).flatMap Frame.rows⟩

/-- `assemble` from `core.py`: collect, concatenate each column group's
row groups, then merge the column groups in grouping order.  `read_df` is
the Table Codec oracle; the result carries the shape-mismatch warnings
emitted by `_merge_all`. -/
def assemble (ls : Path → List Path) (root : Path)
    (cgroups rgroups : Option (List String)) (readDf : Path → Frame)
    (how : MergeHow) : Except PyErr (List Warning × Frame) := do
  let g ← collect ls root cgroups rgroups
  mergeAll how (g.map (fun e => concatFrames (e.2.map readDf)))

/-- The mathematical content of `reduce(lambda a, b: set(a) & set(b), ...)`
over two or more row-group name lists: the distinct names of the first
group that occur in every other group. -/
def interRgroups (g : Grouping) : List String :=
  match g with
  | [] => []
  | (_, ps) :: rest =>
    (dedupBy id (ps.map rnameOf)).filter
      (fun r => rest.all (fun e => (e.2.map rnameOf).contains r))

/-- `_shared_rgroups` from `core.py`.  `reduce` over a single-element
sequence returns that element — here the first group's row-group name
*list*, in file order.  With two or more groups the result is a Python
`set`, whose enumeration order is hash-dependent: it is modelled by the
`setEnum` oracle applied to the canonical intersection list. -/
def sharedRgroups (setEnum : List String → List String) (g : Grouping) :
    Except PyErr (List String) :=
  match g with
  | [] => .error .typeError
  | [(_, ps)] => .ok (ps.map rnameOf)
  | _ => .ok (setEnum (interRgroups g))

/-- One `axis=0` unit of work, shared verbatim by `iterate` and
`partitioned`: for each column group take (`next(...)`) the first member
file whose base name is the row-group name, read it, and merge the
per-group frames. -/
def rgroupJoin (how : MergeHow) (readDf : Path → Frame) (g : Grouping)
    (r : String) : Except PyErr (List Warning × Frame) := do
  let frames ← g.mapM (fun e =>
    match e.2.find? (fun p => rnameOf p == r) with
    | some p => Except.ok (readDf p)
    | none => Except.error PyErr.stopIteration)
  mergeAll how frames

/-- `iterate(axis=0)` from `core.py`, collected into a list: enumerate
`sorted(_shared_rgroups(grouped))` and yield each row-group name with its
merged frame (and the warnings the merge emitted). -/
def iterate0 (setEnum : List String → List String) (ls : Path → List Path)
    (root : Path) (cgroups rgroups : Option (List String))
    (readDf : Path → Frame) (how : MergeHow) :
    Except PyErr (List (String × (List Warning × Frame))) := do
  let g ← collect ls root cgroups rgroups
  let rs ← sharedRgroups setEnum g
  (sortBy id rs).mapM (fun r => (rgroupJoin how readDf g r).map (fun t => (r, t)))

/-- `partitioned` from `core.py`, with the dask partitions collected into
a list: one `merged(rgroup)` partition per element of
`_shared_rgroups(grouped)` — enumerated directly, without `sorted`. -/
def partitioned (setEnum : List String → List String) (ls : Path → List Path)
    (root : Path) (cgroups rgroups : Option (List String))
    (readDf : Path → Frame) (how : MergeHow) :
    Except PyErr (List (List Warning × Frame)) := do
  let g ← collect ls root cgroups rgroups
  let rs ← sharedRgroups setEnum g
  rs.mapM (rgroupJoin how readDf g)

/-! ## The Divider (`divide` from `core.py`) -/

/-- The decimal digit characters used by `"{:05d}".format`. -/
def digitChar : Nat → Char
  | 0 => '0'
  | 1 => '1'
  | 2 => '2'
  | 3 => '3'
  | 4 => '4'
  | 5 => '5'
  | 6 => '6'
  | 7 => '7'
  | 8 => '8'
  | 9 => '9'
  | _ => '*'

/-- The `w` decimal digits of `i < 10^w`, most significant first. -/
def fixedDigits : Nat → Nat → List Char
  | 0, _ => []
  | w + 1, i => digitChar (i / 10 ^ w) :: fixedDigits w (i % 10 ^ w)

/-- `"{:05d}".format(i)`: zero-padded to five digits, wider without
truncation beyond 99999. -/
def pad5 (i : Nat) : String :=
  if i < 100000 then ⟨fixedDigits 5 i⟩ else toString i

/-- `"part_{:05d}{}".format(i + rgroup_offset, extension)`. -/
def partFileName (offset : Nat) (ext : String) (i : Nat) : String :=
  "part_" ++ pad5 (i + offset) ++ ext

/-- The extension normalisation in `divide`: prepend a dot when the first
character is not one. -/
def normExt (ext : String) : String :=
  if ext.toList.head? = some '.' then ext else "." ++ ext

/-- A decimal digit's value. -/
def charDigitVal (c : Char) : Option Nat :=
  if '0' ≤ c ∧ c ≤ '9' then some (c.toNat - '0'.toNat) else none

/-- Accumulate the value of a digit string; `none` on any non-digit. -/
def digitsValAux (acc : Nat) : List Char → Option Nat
  | [] => some acc
  | c :: rest =>
    match charDigitVal c with
    | some d => digitsValAux (acc * 10 + d) rest
    | none => none

/-- The integer-literal fragment of `pd.to_numeric` string parsing
(optionally signed decimal; the model's numbers are integers). -/
def parseIntStr (s : String) : Option Int :=
  match s.toList with
  | [] => none
  | '-' :: rest =>
    if rest.isEmpty then none
    else (digitsValAux 0 rest).map (fun n => -(n : Int))
  | l => (digitsValAux 0 l).map (fun n => (n : Int))

/-- `pd.to_numeric` on one cell: numbers (and missing values) pass
through, strings must parse as numbers. -/
def toNumeric : Value → Option Value
  | .num n => some (.num n)
  | .nan => some .nan
  | .str s => (parseIntStr s).map Value.num

/-- `pd.to_numeric(column, errors="ignore")`: coerce the whole column, or
return it completely unchanged if any cell fails to parse. -/
def toNumericIgnore (col : List Value) : List Value :=
  match col.mapM toNumeric with
  | some converted => converted
  | none => col

/-- Column `j` of a frame. -/
def columnOf (f : Frame) (j : Nat) : List Value := f.rows.map (fun r => r.getD j .nan)

/-- The `convert=True` loop of `divide`:
`for col in df.columns: df[col] = pd.to_numeric(df[col], errors="ignore")`,
an in-place per-column reassignment on the caller's frame (modelled for
rectangular frames with distinct column names, which pandas frames
are). -/
def convertFrame (f : Frame) : Frame :=
  let newColumns := (List.range f.cols.length).map (fun j => toNumericIgnore (columnOf f j))
  ⟨f.cols, (List.range f.rows.length).map (fun i => newColumns.map (fun c => c.getD i .nan))⟩

/-- The shard sizes `np.array_split` uses for `len` rows in `n` parts:
`len % n` parts of size `len / n + 1` first, then parts of size
`len / n`. -/
def splitSizes (len n : Nat) : List Nat :=
  (List.range n).map (fun i => len / n + if i < len % n then 1 else 0)

/-- Cut a list into consecutive chunks of the given sizes. -/
def splitBySizes {α : Type} : List α → List Nat → List (List α)
  | _, [] => []
  | l, s :: ss => l.take s :: splitBySizes (l.drop s) ss

/-- `np.array_split(rows, n)`: a contiguous, order-preserving partition
into `n` chunks whose sizes are `splitSizes`. -/
def arraySplit {α : Type} (l : List α) (n : Nat) : List (List α) :=
  splitBySizes l (splitSizes l.length n)

/-- `df[columns]`: the projection of a frame onto a column list. -/
def selectCols (f : Frame) (cs : List String) : Frame :=
  ⟨cs, f.rows.map (fun r => cs.map (cellAt f.cols r))⟩

/-- What a `divide` call produces: the destination files of the final
batched copy (each with the shard frame written into it, row index
reset), and the state of the caller's dataframe object when the call
returns. -/
structure DivideResult where
  files : List (Path × Frame)
  dfAfter : Frame
deriving DecidableEq, Repr

/-- `divide` from `core.py` (the `prefix=None` default): optionally
coerce the caller's frame in place, normalise the extension, and for each
column group (a single implicit `None` group over all columns when
`cgroup_columns is None`) project the columns, split the rows with
`np.array_split`, and write shard `i` as `part_{i+offset:05d}{ext}`
inside the group's bucket directory. -/
def divideRun (df : Frame) (root : Path) (n : Nat) (offset : Nat)
    (cgroupColumns : Option (List (String × List String))) (ext : String)
    (convert : Bool) : DivideResult :=
  let df' := if convert then convertFrame df else df
  let ext' := normExt ext
  let groups : List (Option String × List String) :=
    match cgroupColumns with
    | none => [(none, df'.cols)]
    | some gs => gs.map (fun e => (some e.1, e.2))
  let files := groups.flatMap (fun g =>
    let cg := selectCols df' g.2
    let bucket := match g.1 with
      | none => root
      | some c => root ++ [c]
    let rnames := (List.range n).map (partFileName offset ext')
    ((arraySplit cg.rows n).zip rnames).map
      (fun e => (bucket ++ [e.2], (⟨cg.cols, e.1⟩ : Frame))))
  ⟨files, df'⟩

/-! ## The retry combinator
(`_retry_with_backoff` from `filesystem/gcs_native_filesystem.py`) -/

/-- Outcome of one attempt of the wrapped network call. -/
inductive Outcome (α : Type) where
  /-- The call returned normally. -/
  | ok (a : α)
  /-- `requests.exceptions.ConnectionError` or `ChunkedEncodingError` —
  the two exception classes the retry loop catches. -/
  | transient
  /-- Any other exception: not caught, propagates at once. -/
  | fatal
deriving DecidableEq, Repr

/-- How a retried call ultimately fails. -/
inductive RetryErr where
  /-- The transient error re-raised once `trial == 6`. -/
  | transientExhausted
  /-- A non-transient exception, surfaced by the first attempt it hits. -/
  | fatal
deriving DecidableEq, Repr

/-- The loop body of `_retry_with_backoff`: at trial `t` compute
`wait = 2 ** (t + 2)`, run the call; on a transient failure re-raise if
`t == 6`, otherwise sleep `wait` seconds and try again.  The loop needs
no fuel in Python because `trial` is incremented up to the `trial == 6`
re-raise; here the structural `fuel` argument keeps `7 - trial` and its
base case is unreachable from the entry point.  Returns the final
outcome and the list of waits slept, in order. -/
def retryGo {α : Type} (attempt : Nat → Outcome α) : Nat → Nat → Except RetryErr α × List Nat
  | 0, _ => (.error .transientExhausted, [])
  | fuel + 1, trial =>
    let wait := 2 ^ (trial + 2)
    match attempt trial with
    | .ok a => (.ok a, [])
    | .fatal => (.error .fatal, [])
    | .transient =>
      if trial = 6 then (.error .transientExhausted, [])
      else
        let rest := retryGo attempt fuel (trial + 1)
        (rest.1, wait :: rest.2)

/-- `_retry_with_backoff` entered at `trial = 0` (so with fuel
`7 = 6 - 0 + 1`, never exhausted before the `trial == 6` re-raise). -/
def retryWithBackoff {α : Type} (attempt : Nat → Outcome α) :
    Except RetryErr α × List Nat :=
  retryGo attempt 7 0

/-- Extract the value of a successful `Except`, with a default for the
error case (used only to state that successful `mapM` runs are plain
`map`s). -/
def exOk {ε β : Type} (dflt : β) : Except ε β → β
  | .ok b => b
  | .error _ => dflt

/-! ## General lemmas: `mapM` over `Except` -/

theorem mapM_ok_of_forall {α β ε : Type} (f : α → Except ε β) (g : α → β) :
    ∀ l : List α, (∀ a ∈ l, f a = .ok (g a)) → l.mapM f = .ok (l.map g) := by
  intro l
  induction l with
  | nil => intro _; rfl
  | cons a l ih =>
    intro h
    rw [List.mapM_cons, h a (by simp), ih (fun b hb => h b (by simp [hb]))]
    rfl

theorem mapM_ok_forall₂ {α β ε : Type} (f : α → Except ε β) :
    ∀ (l : List α) (out : List β), l.mapM f = .ok out →
      List.Forall₂ (fun a b => f a = .ok b) l out := by
  intro l
  induction l with
  | nil =>
    intro out h
    cases out with
    | nil => exact List.Forall₂.nil
    | cons b bs =>
      rw [List.mapM_nil] at h
      exact absurd h (by simp [pure, Except.pure])
  | cons a l ih =>
    intro out h
    rw [List.mapM_cons] at h
    cases hfa : f a with
    | error e => rw [hfa] at h; cases h
    | ok b =>
      rw [hfa] at h
      cases hml : l.mapM f with
      | error e =>
        rw [hml] at h
        cases h
      | ok bs =>
        rw [hml] at h
        cases h
        exact List.Forall₂.cons hfa (ih bs hml)

theorem forall₂_ok_eq_map {α β ε : Type} {f : α → Except ε β} (dflt : β)
    {l : List α} {out : List β}
    (h : List.Forall₂ (fun a b => f a = .ok b) l out) :
    out = l.map (fun a => exOk dflt (f a)) := by
  induction h with
  | nil => rfl
  | cons hfa _ ih =>
    rw [List.map_cons, ← ih]
    congr 1
    rw [hfa]
    rfl

theorem mapM_ok_eq_map {α β ε : Type} (f : α → Except ε β) (dflt : β)
    (l : List α) (out : List β) (h : l.mapM f = .ok out) :
    out = l.map (fun a => exOk dflt (f a)) :=
  forall₂_ok_eq_map dflt (mapM_ok_forall₂ f l out h)

/-! ## Lemmas about the sorting and deduplication models -/

theorem strLtListB_iff : ∀ a b : List Char, strLtListB a b = true ↔ List.Lex (· < ·) a b := by
  intro a
  induction a with
  | nil =>
    intro b
    cases b with
    | nil => simp [strLtListB]
    | cons y ys => simp [strLtListB]; exact List.Lex.nil
  | cons x xs ih =>
    intro b
    cases b with
    | nil =>
      simp only [strLtListB, Bool.false_eq_true, false_iff]
      exact nofun
    | cons y ys =>
      rw [strLtListB]
      by_cases hxy : x < y
      · simp only [if_pos hxy, true_iff]
        exact List.Lex.rel hxy
      · rw [if_neg hxy]
        by_cases hyx : y < x
        · simp only [if_pos hyx, Bool.false_eq_true, false_iff]
          intro hl
          cases hl with
          | rel h => exact hxy h
          | cons h => exact lt_irrefl x hyx
        · rw [if_neg hyx]
          have hxy' : x = y := le_antisymm (le_of_not_lt hyx) (le_of_not_lt hxy)
          subst hxy'
          rw [ih ys]
          constructor
          · exact List.Lex.cons
          · intro hl
            cases hl with
            | rel h => exact absurd h hxy
            | cons h => exact h

theorem strLeB_iff (s t : String) : strLeB s t = true ↔ s ≤ t := by
  rw [strLeB, Bool.not_eq_true', ← not_lt]
  constructor
  · intro h hlt
    have htr := (strLtListB_iff _ _).mpr (String.lt_iff_toList_lt.mp hlt)
    rw [htr] at h
    cases h
  · intro h
    cases hb : strLtListB t.toList s.toList with
    | false => rfl
    | true =>
      exact absurd (String.lt_iff_toList_lt.mpr ((strLtListB_iff _ _).mp hb)) h

theorem insertBy_perm {α : Type} (key : α → String) (x : α) :
    ∀ l : List α, (insertBy key x l).Perm (x :: l) := by
  intro l
  induction l with
  | nil => exact List.Perm.refl _
  | cons y ys ih =>
    rw [insertBy]
    by_cases h : strLeB (key x) (key y) = true
    · rw [if_pos h]
    · rw [if_neg h]
      exact (ih.cons y).trans (List.Perm.swap x y ys)

theorem sortBy_perm {α : Type} (key : α → String) :
    ∀ l : List α, (sortBy key l).Perm l := by
  intro l
  induction l with
  | nil => exact List.Perm.refl _
  | cons x xs ih => exact (insertBy_perm key x (sortBy key xs)).trans (ih.cons x)

theorem mem_sortBy {α : Type} {key : α → String} {a : α} {l : List α} :
    a ∈ sortBy key l ↔ a ∈ l :=
  (sortBy_perm key l).mem_iff

theorem insertBy_pairwise {α : Type} (key : α → String) (x : α) {l : List α}
    (h : List.Pairwise (fun a b => key a ≤ key b) l) :
    List.Pairwise (fun a b => key a ≤ key b) (insertBy key x l) := by
  induction l with
  | nil => simp [insertBy]
  | cons y ys ih =>
    rw [insertBy]
    by_cases hxy : key x ≤ key y
    · rw [if_pos ((strLeB_iff _ _).mpr hxy)]
      refine List.Pairwise.cons ?_ h
      intro z hz
      rcases List.mem_cons.mp hz with rfl | hz
      · exact hxy
      · exact le_trans hxy (List.rel_of_pairwise_cons h hz)
    · rw [if_neg (fun hb => hxy ((strLeB_iff _ _).mp hb))]
      refine List.Pairwise.cons ?_ (ih h.tail)
      intro z hz
      rcases List.mem_cons.mp ((insertBy_perm key x ys).mem_iff.mp hz) with rfl | hz
      · exact le_of_not_le hxy
      · exact List.rel_of_pairwise_cons h hz

theorem sortBy_pairwise {α : Type} (key : α → String) :
    ∀ l : List α, List.Pairwise (fun a b => key a ≤ key b) (sortBy key l) := by
  intro l
  induction l with
  | nil => exact List.Pairwise.nil
  | cons x xs ih => exact insertBy_pairwise key x ih

theorem sortBy_eq_self {α : Type} (key : α → String) :
    ∀ l : List α, List.Pairwise (fun a b => key a ≤ key b) l → sortBy key l = l := by
  intro l
  induction l with
  | nil => intro _; rfl
  | cons x xs ih =>
    intro h
    rw [sortBy, ih h.tail]
    cases xs with
    | nil => rfl
    | cons y ys =>
      rw [insertBy, if_pos ((strLeB_iff _ _).mpr (List.rel_of_pairwise_cons h (by simp)))]

theorem sortBy_id_sorted (l : List String) : List.Sorted (· ≤ ·) (sortBy id l) := by
  have := sortBy_pairwise id l
  simpa [List.Sorted, id] using this

theorem sortBy_id_eq_of_perm {l l' : List String} (h : l.Perm l') :
    sortBy id l = sortBy id l' :=
  List.eq_of_perm_of_sorted
    (((sortBy_perm id l).trans h).trans (sortBy_perm id l').symm)
    (sortBy_id_sorted l) (sortBy_id_sorted l')

theorem dedupByAux_eq_self {α : Type} (key : α → String) :
    ∀ (l : List α) (seen : List String), (∀ a ∈ l, key a ∉ seen) →
      List.Pairwise (fun a b => key a ≠ key b) l → dedupByAux key seen l = l := by
  intro l
  induction l with
  | nil => intro seen _ _; rfl
  | cons x xs ih =>
    intro seen hseen hp
    rw [dedupByAux, if_neg (hseen x (by simp))]
    congr 1
    refine ih (key x :: seen) ?_ hp.tail
    intro a ha
    rw [List.mem_cons]
    rintro (h | h)
    · exact (List.rel_of_pairwise_cons hp ha) h.symm
    · exact hseen a (by simp [ha]) h

theorem dedupBy_eq_self {α : Type} (key : α → String) (l : List α)
    (h : List.Pairwise (fun a b => key a ≠ key b) l) : dedupBy key l = l :=
  dedupByAux_eq_self key l [] (by simp) h

theorem mem_dedupByAux_id :
    ∀ (l : List String) (seen : List String) (a : String),
      a ∈ dedupByAux id seen l ↔ a ∈ l ∧ a ∉ seen := by
  intro l
  induction l with
  | nil => intro seen a; simp [dedupByAux]
  | cons x xs ih =>
    intro seen a
    rw [dedupByAux]
    by_cases hx : (id x : String) ∈ seen
    · rw [if_pos hx, ih]
      simp only [id] at hx
      constructor
      · rintro ⟨h1, h2⟩
        exact ⟨List.mem_cons_of_mem x h1, h2⟩
      · rintro ⟨h1, h2⟩
        rcases List.mem_cons.mp h1 with rfl | h1
        · exact absurd hx h2
        · exact ⟨h1, h2⟩
    · rw [if_neg hx]
      simp only [id] at hx
      constructor
      · intro h
        rcases List.mem_cons.mp h with rfl | h
        · exact ⟨List.mem_cons_self _ _, hx⟩
        · rcases (ih _ a).mp h with ⟨h1, h2⟩
          simp only [List.mem_cons] at h2
          push_neg at h2
          exact ⟨List.mem_cons_of_mem x h1, h2.2⟩
      · rintro ⟨h1, h2⟩
        rcases List.mem_cons.mp h1 with rfl | h1
        · exact List.mem_cons_self _ _
        · by_cases hax : a = x
          · subst hax; exact List.mem_cons_self _ _
          · refine List.mem_cons_of_mem x ((ih _ a).mpr ⟨h1, ?_⟩)
            simp [hax, h2]

theorem mem_dedupBy_id {l : List String} {a : String} :
    a ∈ dedupBy id l ↔ a ∈ l := by
  rw [dedupBy, mem_dedupByAux_id]
  simp

/-! ## Lexicographic order of the `part_XXXXX` file names

Python sorts path strings; these lemmas show the zero-padded shard names
written by `divide` come back in shard-index order. -/

theorem toList_append (s t : String) : (s ++ t).toList = s.toList ++ t.toList :=
  String.data_append s t

theorem digitChar_lt : ∀ a b : Fin 10, a.val < b.val → digitChar a.val < digitChar b.val := by
  decide

theorem fixedDigits_length : ∀ w i : Nat, (fixedDigits w i).length = w := by
  intro w
  induction w with
  | zero => intro i; rfl
  | succ w ih => intro i; simp [fixedDigits, ih]

theorem lex_append_of_length_eq {α : Type} {r : α → α → Prop} :
    ∀ {xs ys : List α}, List.Lex r xs ys → xs.length = ys.length →
      ∀ as bs : List α, List.Lex r (xs ++ as) (ys ++ bs) := by
  intro xs ys h
  induction h with
  | nil => intro hlen; simp at hlen
  | cons _ ih =>
    intro hlen as bs
    exact List.Lex.cons (ih (by simpa using hlen) as bs)
  | rel h => intro _ as bs; exact List.Lex.rel h

theorem fixedDigits_lt :
    ∀ w i j : Nat, i < j → j < 10 ^ w →
      List.Lex (· < ·) (fixedDigits w i) (fixedDigits w j) := by
  intro w
  induction w with
  | zero => intro i j hij hj; omega
  | succ w ih =>
    intro i j hij hj
    have hpow : 0 < 10 ^ w := Nat.pos_pow_of_pos w (by omega)
    have hjd : j / 10 ^ w < 10 := by
      rw [Nat.div_lt_iff_lt_mul hpow]
      calc j < 10 ^ (w + 1) := hj
        _ = 10 * 10 ^ w := by ring
        _ ≤ 10 * 10 ^ w := le_refl _
      -- noop calc tail to keep the rewrite shape
    rw [fixedDigits, fixedDigits]
    rcases Nat.lt_or_ge (i / 10 ^ w) (j / 10 ^ w) with h | h
    · have hid : i / 10 ^ w < 10 := lt_trans h hjd
      exact List.Lex.rel (digitChar_lt ⟨i / 10 ^ w, hid⟩ ⟨j / 10 ^ w, hjd⟩ h)
    · have heq : i / 10 ^ w = j / 10 ^ w :=
        le_antisymm (Nat.div_le_div_right (le_of_lt hij)) h
      rw [heq]
      refine List.Lex.cons (ih _ _ ?_ (Nat.mod_lt _ hpow))
      have hi := Nat.div_add_mod i (10 ^ w)
      have hj' := Nat.div_add_mod j (10 ^ w)
      rw [heq] at hi
      omega

theorem pad5_toList (i : Nat) (hi : i < 100000) : (pad5 i).toList = fixedDigits 5 i := by
  rw [pad5, if_pos hi]
  rfl

theorem prefixed_partFileName_lt (pre ext : String) (i j : Nat)
    (hij : i < j) (hj : j < 100000) :
    pre ++ partFileName 0 ext i < pre ++ partFileName 0 ext j := by
  rw [String.lt_iff_toList_lt]
  rw [partFileName, partFileName]
  simp only [Nat.add_zero, toList_append, List.append_assoc]
  refine List.Lex.append_left _ ?_ pre.toList
  refine List.Lex.append_left _ ?_ "part_".toList
  rw [pad5_toList i (lt_trans hij hj), pad5_toList j hj]
  exact lex_append_of_length_eq (fixedDigits_lt 5 i j hij (by norm_num [hj]))
    (by rw [fixedDigits_length, fixedDigits_length]) _ _

/-- The string Python joins in front of a file name dropped into
directory `dir`. -/
def dirPrefix (dir : Path) : String :=
  if dir.isEmpty then "" else Path.render dir ++ "/"

theorem render_append_singleton :
    ∀ (dir : Path) (s : String), Path.render (dir ++ [s]) = dirPrefix dir ++ s := by
  intro dir
  induction dir with
  | nil => intro s; rfl
  | cons d rest ih =>
    intro s
    cases rest with
    | nil => simp [Path.render, dirPrefix, String.append_assoc]
    | cons e rest' =>
      have h1 : Path.render ((d :: e :: rest') ++ [s])
          = d ++ "/" ++ Path.render ((e :: rest') ++ [s]) := rfl
      rw [h1, ih s]
      simp [dirPrefix, Path.render, String.append_assoc]

theorem writtenPaths_pairwise_lt (dir : Path) (ext : String) (n : Nat)
    (hn : n ≤ 100000) :
    List.Pairwise (fun a b : Path => Path.render a < Path.render b)
      ((List.range n).map (fun i => dir ++ [partFileName 0 ext i])) := by
  rw [List.pairwise_map]
  rw [List.pairwise_iff_getElem]
  intro i j hi hj hij
  simp only [List.getElem_range]
  rw [render_append_singleton, render_append_singleton]
  rw [List.length_range] at hi hj
  exact prefixed_partFileName_lt (dirPrefix dir) ext i j hij (lt_of_lt_of_le hj hn)

/-! ## Lemmas about grouping and lookup -/

theorem lookup_isSome_of_mem_keys {β : Type} {k : String} :
    ∀ {l : List (String × β)}, k ∈ l.map Prod.fst → ∃ v, l.lookup k = some v := by
  intro l
  induction l with
  | nil => intro h; simp at h
  | cons e rest ih =>
    intro h
    rw [List.lookup_cons]
    by_cases hk : k = e.1
    · exact ⟨e.2, by simp [hk]⟩
    · have h' : k = e.1 ∨ k ∈ rest.map Prod.fst := by
        rw [List.map_cons] at h
        exact List.mem_cons.mp h
      have : k ∈ rest.map Prod.fst := h'.resolve_left hk
      rcases ih this with ⟨v, hv⟩
      exact ⟨v, by simp [beq_false_of_ne hk, hv]⟩

theorem lookup_eq_none_of_not_mem_keys {β : Type} {k : String} :
    ∀ {l : List (String × β)}, k ∉ l.map Prod.fst → l.lookup k = none := by
  intro l
  induction l with
  | nil => intro _; rfl
  | cons e rest ih =>
    intro h
    have hk : k ≠ e.1 := fun he => h (by simp [he])
    rw [List.lookup_cons]
    simp only [beq_false_of_ne hk]
    exact ih (fun hm => h (by simp [hm]))

theorem addGrouped_keys (c : String) (p : Path) :
    ∀ acc : Grouping, (addGrouped acc c p).map Prod.fst =
      if c ∈ acc.map Prod.fst then acc.map Prod.fst else acc.map Prod.fst ++ [c] := by
  intro acc
  induction acc with
  | nil => simp [addGrouped]
  | cons e rest ih =>
    obtain ⟨c', qs⟩ := e
    rw [addGrouped]
    by_cases hc : c' = c
    · subst hc
      simp
    · have hcc' : ¬ (c = c') := fun h => hc h.symm
      simp only [if_neg hc, List.map_cons, ih, List.mem_cons]
      by_cases hm : c ∈ rest.map Prod.fst
      · simp [hm, hcc']
      · simp [hm, hcc']

theorem addGrouped_keys_nodup (c : String) (p : Path) (acc : Grouping)
    (h : (acc.map Prod.fst).Nodup) : ((addGrouped acc c p).map Prod.fst).Nodup := by
  rw [addGrouped_keys]
  by_cases hm : c ∈ acc.map Prod.fst
  · rwa [if_pos hm]
  · rw [if_neg hm]
    rw [List.nodup_append]
    refine ⟨h, List.nodup_singleton c, ?_⟩
    intro a ha hac
    rw [List.mem_singleton] at hac
    exact hm (hac ▸ ha)

theorem groupCnames_keys_nodup (ps : List Path) :
    ((groupCnames ps).map Prod.fst).Nodup := by
  have : ∀ (qs : List Path) (acc : Grouping), (acc.map Prod.fst).Nodup →
      ((qs.foldl (fun acc p => addGrouped acc (cnameOf p) p) acc).map Prod.fst).Nodup := by
    intro qs
    induction qs with
    | nil => intro acc h; exact h
    | cons q qs' ih =>
      intro acc h
      exact ih _ (addGrouped_keys_nodup _ _ _ h)
  exact this ps [] (by simp)

theorem groupCnames_const_aux (c : String) :
    ∀ (ps qs : List Path), (∀ p ∈ ps, cnameOf p = c) →
      ps.foldl (fun acc p => addGrouped acc (cnameOf p) p) [(c, qs)] = [(c, qs ++ ps)] := by
  intro ps
  induction ps with
  | nil => intro qs _; simp
  | cons p ps' ih =>
    intro qs h
    rw [List.foldl_cons, h p (by simp), addGrouped, if_pos rfl,
      ih (qs ++ [p]) (fun q hq => h q (by simp [hq]))]
    simp

theorem groupCnames_const (c : String) (p : Path) (ps : List Path)
    (h : ∀ q ∈ p :: ps, cnameOf q = c) :
    groupCnames (p :: ps) = [(c, p :: ps)] := by
  rw [groupCnames, List.foldl_cons, h p (by simp), addGrouped,
    groupCnames_const_aux c ps [p] (fun q hq => h q (by simp [hq]))]
  simp

/-! ## Lemmas about `np.array_split` -/

theorem splitSizes_length (len n : Nat) : (splitSizes len n).length = n := by
  simp [splitSizes]

theorem splitSizes_sum_aux (q r : Nat) :
    ∀ m : Nat, ((List.range m).map (fun i => q + if i < r then 1 else 0)).sum
      = m * q + min m r := by
  intro m
  induction m with
  | zero => simp
  | succ m ih =>
    rw [List.range_succ, List.map_append, List.sum_append, ih]
    simp only [List.map_cons, List.map_nil, List.sum_cons, List.sum_nil]
    have hmul : (m + 1) * q = m * q + q := by ring
    by_cases hm : m < r
    · rw [if_pos hm]
      omega
    · rw [if_neg hm]
      omega

theorem splitSizes_sum (len n : Nat) (hn : 0 < n) : (splitSizes len n).sum = len := by
  rw [splitSizes, splitSizes_sum_aux]
  have hr : len % n < n := Nat.mod_lt _ hn
  have := Nat.div_add_mod len n
  omega

theorem splitBySizes_length {α : Type} :
    ∀ (ss : List Nat) (l : List α), (splitBySizes l ss).length = ss.length := by
  intro ss
  induction ss with
  | nil => intro l; rfl
  | cons s ss' ih => intro l; simp [splitBySizes, ih]

theorem splitBySizes_map_length {α : Type} :
    ∀ (ss : List Nat) (l : List α), ss.sum ≤ l.length →
      (splitBySizes l ss).map List.length = ss := by
  intro ss
  induction ss with
  | nil => intro l _; rfl
  | cons s ss' ih =>
    intro l h
    rw [List.sum_cons] at h
    have hs : s ≤ l.length := le_trans (Nat.le_add_right s ss'.sum) h
    rw [splitBySizes, List.map_cons, List.length_take, min_eq_left hs,
      ih (l.drop s) (by rw [List.length_drop]; omega)]

theorem splitBySizes_flatten {α : Type} :
    ∀ (ss : List Nat) (l : List α), (splitBySizes l ss).flatten = l.take ss.sum := by
  intro ss
  induction ss with
  | nil => intro l; rfl
  | cons s ss' ih =>
    intro l
    rw [splitBySizes, List.flatten_cons, ih (l.drop s), List.sum_cons, List.take_add]

theorem arraySplit_flatten {α : Type} (l : List α) (n : Nat) (hn : 0 < n) :
    (arraySplit l n).flatten = l := by
  rw [arraySplit, splitBySizes_flatten, splitSizes_sum _ _ hn, List.take_length]

theorem arraySplit_length {α : Type} (l : List α) (n : Nat) :
    (arraySplit l n).length = n := by
  rw [arraySplit, splitBySizes_length, splitSizes_length]

theorem getD_length_of_map_length {α : Type} :
    ∀ (parts : List (List α)) (ss : List Nat), parts.map List.length = ss →
      ∀ i : Nat, (parts.getD i []).length = ss.getD i 0 := by
  intro parts
  induction parts with
  | nil =>
    intro ss h i
    rw [← h]
    rfl
  | cons p ps ih =>
    intro ss h i
    cases ss with
    | nil => cases h
    | cons s ss' =>
      rw [List.map_cons] at h
      injection h with h1 h2
      cases i with
      | zero => simpa using h1
      | succ j => simpa using ih ss' h2 j

theorem getD_map_range (m : Nat) (f : Nat → Nat) (i : Nat) (hi : i < m) :
    ((List.range m).map f).getD i 0 = f i := by
  rw [List.getD_eq_getElem _ _ (by simpa using hi)]
  simp

theorem arraySplit_chunk_length {α : Type} (l : List α) (n i : Nat)
    (hn : 0 < n) (hi : i < n) :
    ((arraySplit l n).getD i []).length = l.length / n + if i < l.length % n then 1 else 0 := by
  have hml : (arraySplit l n).map List.length = splitSizes l.length n :=
    splitBySizes_map_length (splitSizes l.length n) l (le_of_eq (splitSizes_sum _ _ hn))
  rw [getD_length_of_map_length _ _ hml i, splitSizes, getD_map_range n _ i hi]

/-! ## Claim C3: an empty listing is fatal -/

/-- C3: for every path pattern for which the storage listing returns an
empty sequence, `_collect` (and hence `assemble` / `iterate` /
`partitioned`) raises `NotFoundError` (the `ValueError` of `core.py`,
named `NotFoundError` by the spec's taxonomy) immediately; it never
returns an empty Grouping silently. -/
theorem c3_noMatch_is_fatal (ls : Path → List Path) (root : Path)
    (cgroups rgroups : Option (List String)) (readDf : Path → Frame)
    (how : MergeHow) (setEnum : List String → List String)
    (h : ls root = []) :
    collect ls root cgroups rgroups = .error .notFound
    ∧ assemble ls root cgroups rgroups readDf how = .error .notFound
    ∧ iterate0 setEnum ls root cgroups rgroups readDf how = .error .notFound
    ∧ partitioned setEnum ls root cgroups rgroups readDf how = .error .notFound := by
  have hc : collect ls root cgroups rgroups = .error .notFound := by
    rw [collect, if_pos (by simp [h])]
  refine ⟨hc, ?_, ?_, ?_⟩ <;>
    simp [assemble, iterate0, partitioned, hc, Bind.bind, Except.bind]

/-- Witness for C3 at a concrete empty listing. -/
theorem c3_noMatch_is_fatal_witness :
    ((fun _ : Path => ([] : List Path)) ["data"] = [])
    ∧ collect (fun _ : Path => ([] : List Path)) ["data"] none none
        = .error .notFound := by
  refine ⟨rfl, ?_⟩
  exact (c3_noMatch_is_fatal (fun _ => []) ["data"] none none (fun _ => ⟨[], []⟩)
    .inner id rfl).1

/-! ## Claim C10: filters that exclude everything produce an empty
Grouping and an IndexError in `assemble` -/

/-- C10: when the listing of the root is non-empty but the rgroup filter
(with `cgroups = None`) excludes every expanded file, `_collect` returns
an empty Grouping without raising, and `assemble` then fails with the
out-of-range `IndexError` of `frames[0]` in `_merge_all`. -/
theorem c10_empty_filter_indexError (ls : Path → List Path) (root : Path)
    (rgroups : Option (List String)) (readDf : Path → Frame) (how : MergeHow)
    (hne : ls root ≠ [])
    (hf : filterPaths (expand ls (ls root)) none rgroups = []) :
    collect ls root none rgroups = .ok []
    ∧ assemble ls root none rgroups readDf how = .error .indexError := by
  have hc : collect ls root none rgroups = .ok [] := by
    rw [collect, if_neg (by simpa [List.isEmpty_iff] using hne)]
    simp [hf, access, groupCnames, sortBy, orderedDictOf, dedupBy, dedupByAux,
      List.mapM, List.mapM.loop, pure, Except.pure, Except.map]
  refine ⟨hc, ?_⟩
  simp [assemble, hc, Bind.bind, Except.bind, mergeAll]

/-- Witness for C10: one real file under the root, an rgroup filter that
matches nothing. -/
theorem c10_empty_filter_indexError_witness :
    ((fun p : Path => if p = ["data"] then [["data", "c0", "part_00000.pq"]] else [])
        ["data"] ≠ [])
    ∧ filterPaths
        (expand (fun p : Path => if p = ["data"] then [["data", "c0", "part_00000.pq"]] else [])
          ((fun p : Path => if p = ["data"] then [["data", "c0", "part_00000.pq"]] else [])
            ["data"]))
        none (some ["nope"]) = []
    ∧ assemble (fun p : Path => if p = ["data"] then [["data", "c0", "part_00000.pq"]] else [])
        ["data"] none (some ["nope"]) (fun _ => ⟨[], []⟩) .inner = .error .indexError := by
  refine ⟨by decide, by decide, ?_⟩
  exact (c10_empty_filter_indexError _ ["data"] (some ["nope"]) (fun _ => ⟨[], []⟩)
    .inner (by decide) (by decide)).2

/-! ## Claim C7: shape mismatch warns, never aborts -/

/-- C7: before each pairwise join `_safe_merge` compares row counts; a
difference emits a warning carrying both counts and the merge still
proceeds with the requested mode on shared columns; equal counts emit no
warning; `_merge_all` on a non-empty frame list always succeeds and its
frame is the plain left fold of `pd.merge`, every warning it accumulates
being a genuine mismatch. -/
theorem c7_shape_mismatch_warns (how : MergeHow) (a b : Frame)
    (h : a.rowCount ≠ b.rowCount) :
    safeMerge how a b = ([(a.rowCount, b.rowCount)], pdMerge how a b)
    ∧ (∀ c d : Frame, c.rowCount = d.rowCount → safeMerge how c d = ([], pdMerge how c d))
    ∧ (∀ (f : Frame) (fs : List Frame), ∃ ws,
        mergeAll how (f :: fs) = .ok (ws, fs.foldl (fun acc g => pdMerge how acc g) f)
        ∧ ∀ p ∈ ws, p.1 ≠ p.2) := by
  have haux : ∀ (fs : List Frame) (ws0 : List Warning) (f : Frame),
      (∀ p ∈ ws0, p.1 ≠ p.2) →
      ∃ ws, (fs.foldl (fun acc g =>
          let step := safeMerge how acc.2 g
          (acc.1 ++ step.1, step.2)) (ws0, f))
        = (ws, fs.foldl (fun acc g => pdMerge how acc g) f)
        ∧ ∀ p ∈ ws, p.1 ≠ p.2 := by
    intro fs
    induction fs with
    | nil => intro ws0 f h0; exact ⟨ws0, rfl, h0⟩
    | cons g fs' ih =>
      intro ws0 f h0
      rw [List.foldl_cons, List.foldl_cons]
      refine ih (ws0 ++ (safeMerge how f g).1) (pdMerge how f g) ?_
      intro p hp
      rcases List.mem_append.mp hp with hp | hp
      · exact h0 p hp
      · rw [safeMerge] at hp
        by_cases hfg : f.rowCount = g.rowCount
        · simp [hfg] at hp
        · simp only [if_neg hfg] at hp
          rw [List.mem_singleton] at hp
          rw [hp]
          exact hfg
  refine ⟨by simp [safeMerge, h], fun c d hcd => by simp [safeMerge, hcd], ?_⟩
  intro f fs
  rcases haux fs [] f (by simp) with ⟨ws, hws, hall⟩
  exact ⟨ws, by rw [mergeAll, hws], hall⟩

/-- Witness for C7 at two one-column frames with 2 and 1 rows. -/
theorem c7_shape_mismatch_warns_witness :
    (Frame.mk ["k"] [[.num 0], [.num 1]]).rowCount
      ≠ (Frame.mk ["k"] [[.num 0]]).rowCount
    ∧ safeMerge .inner (Frame.mk ["k"] [[.num 0], [.num 1]]) (Frame.mk ["k"] [[.num 0]])
      = ([(2, 1)], pdMerge .inner (Frame.mk ["k"] [[.num 0], [.num 1]]) (Frame.mk ["k"] [[.num 0]])) := by
  refine ⟨by decide, ?_⟩
  exact (c7_shape_mismatch_warns .inner _ _ (by decide)).1

/-! ## Claim C8: retry with bounded exponential backoff -/

theorem retryGo_all_transient {α : Type} (attempt : Nat → Outcome α) :
    ∀ (fuel trial : Nat), trial + fuel = 7 →
      (∀ k, trial ≤ k → k ≤ 6 → attempt k = .transient) →
      retryGo attempt fuel trial
        = (.error .transientExhausted,
           (List.range' (trial + 2) (6 - trial)).map (fun e => 2 ^ e)) := by
  intro fuel
  induction fuel with
  | zero =>
    intro trial htf _
    have : trial = 7 := by omega
    subst this
    rfl
  | succ fuel ih =>
    intro trial htf h
    have htle : trial ≤ 6 := by omega
    rw [retryGo]
    rw [h trial (le_refl _) htle]
    by_cases ht : trial = 6
    · rw [if_pos ht, ht]
      rfl
    · rw [if_neg ht]
      rw [ih (trial + 1) (by omega) (fun k hk1 hk2 => h k (by omega) hk2)]
      have h6 : 6 - trial = (6 - (trial + 1)) + 1 := by omega
      rw [h6, List.range'_succ]
      simp

theorem retryGo_first_stop {α : Type} (attempt : Nat → Outcome α) :
    ∀ (fuel trial j : Nat), trial + fuel = 7 → trial ≤ j → j ≤ 6 →
      (∀ k, trial ≤ k → k < j → attempt k = .transient) →
      (∀ a, attempt j = .ok a →
        retryGo attempt fuel trial
          = (.ok a, (List.range' (trial + 2) (j - trial)).map (fun e => 2 ^ e)))
      ∧ (attempt j = .fatal →
        retryGo attempt fuel trial
          = (.error .fatal, (List.range' (trial + 2) (j - trial)).map (fun e => 2 ^ e))) := by
  intro fuel
  induction fuel with
  | zero =>
    intro trial j htf hij hj _
    omega
  | succ fuel ih =>
    intro trial j htf hij hj h
    by_cases htj : trial = j
    · subst htj
      constructor
      · intro a ha
        rw [retryGo, ha]
        simp
      · intro ha
        rw [retryGo, ha]
        simp
    · have hlt : trial < j := lt_of_le_of_ne hij htj
      have htrans : attempt trial = .transient := h trial (le_refl _) hlt
      have ht6 : trial ≠ 6 := by omega
      have hrec := ih (trial + 1) j (by omega) (by omega) hj
        (fun k hk1 hk2 => h k (by omega) hk2)
      have hwaits : j - trial = (j - (trial + 1)) + 1 := by omega
      constructor
      · intro a ha
        rw [retryGo, htrans, if_neg ht6, (hrec.1 a ha)]
        rw [hwaits, List.range'_succ]
        simp
      · intro ha
        rw [retryGo, htrans, if_neg ht6, hrec.2 ha]
        rw [hwaits, List.range'_succ]
        simp

theorem retryGo_waits_bound {α : Type} (attempt : Nat → Outcome α) :
    ∀ (fuel trial : Nat), trial + fuel ≤ 7 →
      (retryGo attempt fuel trial).2.length ≤ 6 - trial
      ∧ ∀ w ∈ (retryGo attempt fuel trial).2, 4 ≤ w ∧ w ≤ 128 := by
  intro fuel
  induction fuel with
  | zero =>
    intro trial _
    exact ⟨by simp [retryGo], by simp [retryGo]⟩
  | succ fuel ih =>
    intro trial htf
    rw [retryGo]
    cases hat : attempt trial with
    | ok a => exact ⟨by simp, by simp⟩
    | fatal => exact ⟨by simp, by simp⟩
    | transient =>
      by_cases ht : trial = 6
      · rw [if_pos ht]
        exact ⟨by simp, by simp⟩
      · rw [if_neg ht]
        have hrec := ih (trial + 1) (by omega)
        have hw : (4 : Nat) ≤ 2 ^ (trial + 2) ∧ 2 ^ (trial + 2) ≤ 128 := by
          constructor
          · calc (4 : Nat) = 2 ^ 2 := by norm_num
              _ ≤ 2 ^ (trial + 2) := Nat.pow_le_pow_right (by norm_num) (by omega)
          · calc (2 : Nat) ^ (trial + 2) ≤ 2 ^ 7 :=
                Nat.pow_le_pow_right (by norm_num) (by omega)
              _ = 128 := by norm_num
        refine ⟨?_, ?_⟩
        · simp only [List.length_cons]
          omega
        · intro w hw'
          rcases List.mem_cons.mp hw' with rfl | hw'
          · exact hw
          · exact hrec.2 w hw'

/-- C8: the staging retry combinator `_retry_with_backoff` retries only
the two transient connection errors, sleeping `4s, 8s, 16s, ...` up to
the `128s` ceiling for a bounded seven attempts before re-raising the
transient error; a call that succeeds or hits any other (fatal) exception
at attempt `j` stops right there after exactly the first `j` backoff
sleeps — in particular a fatal listing error at the first attempt is
surfaced immediately with no retry — and an empty listing is turned into
the immediate `NotFoundError` by `_collect` before any staging copy. -/
theorem c8_retry_backoff {α : Type} (attempt : Nat → Outcome α) (j : Nat) (a : α)
    (hj : j ≤ 6) :
    ((∀ k, k ≤ 6 → attempt k = .transient) →
      retryWithBackoff attempt = (.error .transientExhausted, [4, 8, 16, 32, 64, 128]))
    ∧ ((∀ k, k < j → attempt k = .transient) → attempt j = .ok a →
      retryWithBackoff attempt = (.ok a, (List.range j).map (fun k => 2 ^ (k + 2))))
    ∧ ((∀ k, k < j → attempt k = .transient) → attempt j = .fatal →
      retryWithBackoff attempt = (.error .fatal, (List.range j).map (fun k => 2 ^ (k + 2))))
    ∧ ((retryWithBackoff attempt).2.length ≤ 6
      ∧ ∀ w ∈ (retryWithBackoff attempt).2, 4 ≤ w ∧ w ≤ 128)
    ∧ (∀ (ls : Path → List Path) (root : Path) (cgroups rgroups : Option (List String)),
        ls root = [] → collect ls root cgroups rgroups = .error .notFound) := by
  have hrange : ∀ m : Nat, (List.range' 2 m).map (fun e => (2:Nat) ^ e)
      = (List.range m).map (fun k => 2 ^ (k + 2)) := by
    intro m
    rw [List.range'_eq_map_range, List.map_map]
    congr 1
    funext k
    simp [Nat.add_comm]
  refine ⟨?_, ?_, ?_, ?_, ?_⟩
  · intro h
    rw [retryWithBackoff, retryGo_all_transient attempt 7 0 (by omega) (fun k _ hk => h k hk)]
    rfl
  · intro h hok
    rw [retryWithBackoff,
      (retryGo_first_stop attempt 7 0 j (by omega) (by omega) hj (fun k _ hk => h k hk)).1 a hok]
    rw [Nat.sub_zero, hrange]
  · intro h hfat
    rw [retryWithBackoff,
      (retryGo_first_stop attempt 7 0 j (by omega) (by omega) hj (fun k _ hk => h k hk)).2 hfat]
    rw [Nat.sub_zero, hrange]
  · have := retryGo_waits_bound attempt 7 0 (by omega)
    exact ⟨le_trans this.1 (by omega), this.2⟩
  · intro ls root cgroups rgroups h
    rw [collect, if_pos (by simp [h])]

/-- Witness for C8: success at the fourth attempt after three transient
failures sleeps 4, 8 and 16 seconds. -/
theorem c8_retry_backoff_witness :
    (3 : Nat) ≤ 6
    ∧ (∀ k, k < 3 → (fun t => if t = 3 then Outcome.ok (0 : Nat) else .transient) k
        = .transient)
    ∧ (fun t => if t = 3 then Outcome.ok (0 : Nat) else .transient) 3 = .ok 0
    ∧ retryWithBackoff (fun t => if t = 3 then Outcome.ok (0 : Nat) else .transient)
        = (.ok 0, [4, 8, 16]) := by
  refine ⟨by decide, by decide, by decide, ?_⟩
  have := (c8_retry_backoff (fun t => if t = 3 then Outcome.ok (0 : Nat) else .transient)
    3 0 (by decide)).2.1 (by decide) (by decide)
  rw [this]
  rfl

/-! ## Claim C9: `convert=True` mutates the caller's dataframe -/

theorem map_getD_range {α : Type} (l : List α) (d : α) :
    (List.range l.length).map (fun i => l.getD i d) = l := by
  apply List.ext_getElem
  · simp
  · intro i h1 h2
    simp only [List.getElem_map, List.getElem_range]
    exact List.getD_eq_getElem l d h2

theorem option_mapM_length {α β : Type} (f : α → Option β) :
    ∀ (l : List α) (out : List β), l.mapM f = some out → out.length = l.length := by
  intro l
  induction l with
  | nil =>
    intro out h
    rw [List.mapM_nil] at h
    cases h
    rfl
  | cons a l ih =>
    intro out h
    rw [List.mapM_cons] at h
    cases hfa : f a with
    | none => rw [hfa] at h; cases h
    | some b =>
      rw [hfa] at h
      cases hml : l.mapM f with
      | none => rw [hml] at h; cases h
      | some bs =>
        rw [hml] at h
        cases h
        simp [ih bs hml]

theorem toNumericIgnore_length (col : List Value) :
    (toNumericIgnore col).length = col.length := by
  rw [toNumericIgnore]
  cases h : col.mapM toNumeric with
  | none => rfl
  | some out => exact option_mapM_length toNumeric col out h

theorem columnOf_length (f : Frame) (j : Nat) :
    (columnOf f j).length = f.rows.length := by
  simp [columnOf]

theorem convertFrame_column (f : Frame) (j : Nat) (hj : j < f.cols.length) :
    columnOf (convertFrame f) j = toNumericIgnore (columnOf f j) := by
  have hlenR : (toNumericIgnore (columnOf f j)).length = f.rows.length := by
    rw [toNumericIgnore_length, columnOf_length]
  apply List.ext_getElem
  · rw [columnOf_length, hlenR]
    simp [convertFrame]
  · intro i h1 h2
    conv_lhs => simp only [columnOf, convertFrame]
    simp only [List.getElem_map, List.getElem_range]
    rw [List.getD_eq_getElem _ _ (by simpa using hj)]
    simp only [List.getElem_map, List.getElem_range]
    have hfold : toNumericIgnore (List.map (fun r => r.getD j Value.nan) f.rows)
        = toNumericIgnore (columnOf f j) := rfl
    rw [hfold, List.getD_eq_getElem _ _ h2]

theorem convertFrame_rowCount (f : Frame) :
    (convertFrame f).rowCount = f.rowCount := by
  simp [convertFrame, Frame.rowCount]

/-- C9: with `convert=True` the caller's dataframe object is mutated in
place — after `divide` returns, every column of the caller's frame holds
its `pd.to_numeric(..., errors="ignore")` coercion (unparseable columns
kept as-is), and for some inputs this genuinely changes the frame; with
`convert=False` the caller's frame is untouched. -/
theorem c9_divide_convert_mutates (df : Frame) (root : Path) (n offset : Nat)
    (cgroupColumns : Option (List (String × List String))) (ext : String)
    (j : Nat) (hj : j < df.cols.length) :
    (divideRun df root n offset cgroupColumns ext true).dfAfter = convertFrame df
    ∧ (divideRun df root n offset cgroupColumns ext false).dfAfter = df
    ∧ (convertFrame df).cols = df.cols
    ∧ (convertFrame df).rowCount = df.rowCount
    ∧ columnOf (convertFrame df) j = toNumericIgnore (columnOf df j)
    ∧ (∃ dfx : Frame, convertFrame dfx ≠ dfx) := by
  refine ⟨rfl, rfl, rfl, convertFrame_rowCount df, convertFrame_column df j hj, ?_⟩
  exact ⟨⟨["a"], [[.str "1"]]⟩, by decide⟩

/-- Witness for C9: a one-column frame of digit strings is coerced in
place. -/
theorem c9_divide_convert_mutates_witness :
    (0 : Nat) < (Frame.mk ["a"] [[.str "1"], [.str "2"]]).cols.length
    ∧ (divideRun (Frame.mk ["a"] [[.str "1"], [.str "2"]]) ["d"] 1 0 none ".pq" true).dfAfter
        = convertFrame (Frame.mk ["a"] [[.str "1"], [.str "2"]])
    ∧ columnOf (convertFrame (Frame.mk ["a"] [[.str "1"], [.str "2"]])) 0
        = toNumericIgnore (columnOf (Frame.mk ["a"] [[.str "1"], [.str "2"]]) 0) := by
  refine ⟨by decide, ?_, ?_⟩
  · exact (c9_divide_convert_mutates (Frame.mk ["a"] [[.str "1"], [.str "2"]])
      ["d"] 1 0 none ".pq" 0 (by decide)).1
  · exact (c9_divide_convert_mutates (Frame.mk ["a"] [[.str "1"], [.str "2"]])
      ["d"] 1 0 none ".pq" 0 (by decide)).2.2.2.2.1

/-! ## Claim C2: the balanced contiguous split of `divide` -/

theorem cellAt_cons_self (c : String) (cs : List String) (v : Value) (vs : List Value) :
    cellAt (c :: cs) (v :: vs) c = v := by
  rw [cellAt, colIndex, List.indexOf?_cons]
  simp

theorem cellAt_cons_ne (c c' : String) (cs : List String) (v : Value) (vs : List Value)
    (h : c' ≠ c) : cellAt (c :: cs) (v :: vs) c' = cellAt cs vs c' := by
  rw [cellAt, cellAt, colIndex, colIndex, List.indexOf?_cons]
  simp only [beq_false_of_ne (Ne.symm h), if_false]
  cases hidx : List.indexOf? c' cs with
  | none => simp [hidx]
  | some i => simp [hidx, List.getD_cons_succ]

theorem map_cellAt_self :
    ∀ (cols : List String) (r : List Value), cols.Nodup → r.length = cols.length →
      cols.map (cellAt cols r) = r := by
  intro cols
  induction cols with
  | nil =>
    intro r _ hlen
    have : r = [] := List.length_eq_zero.mp (by simpa using hlen)
    subst this
    rfl
  | cons c cs ih =>
    intro r hnd hlen
    cases r with
    | nil => simp at hlen
    | cons v vs =>
      rw [List.map_cons, cellAt_cons_self]
      congr 1
      have hstep : cs.map (cellAt (c :: cs) (v :: vs)) = cs.map (cellAt cs vs) := by
        apply List.map_congr_left
        intro c' hc'
        have hne : c' ≠ c := by
          intro he
          exact (List.nodup_cons.mp hnd).1 (he ▸ hc')
        exact cellAt_cons_ne c c' cs v vs hne
      rw [hstep, ih vs (List.nodup_cons.mp hnd).2 (by simpa using hlen)]

theorem selectCols_self (f : Frame) (h : f.WF) : selectCols f f.cols = f := by
  rw [selectCols]
  cases f with
  | mk cols rows =>
    simp only [Frame.mk.injEq, true_and]
    calc rows.map (fun r => cols.map (cellAt cols r))
        = rows.map (fun r => r) := by
          apply List.map_congr_left
          intro r hr
          exact map_cellAt_self cols r h.1 (h.2 r hr)
      _ = rows := List.map_id' rows

/-- C2: `divide` on a frame of `R` rows with `n_rgroup = n ≥ 1` (and no
cgroups) writes exactly `n` shard files; shard `i` holds
`R / n + 1` rows if `i < R % n` and `R / n` rows otherwise (the first
shards absorb the remainder), so any two shard row counts differ by at
most one and they sum to `R`; concatenating the shards in shard-index
order restores the original rows exactly (the split is contiguous and
order-preserving). -/
theorem c2_balanced_split (df : Frame) (root : Path) (n offset : Nat) (ext : String)
    (fs : List (Path × Frame))
    (hwf : df.WF) (hn : 0 < n)
    (hfs : (divideRun df root n offset none ext false).files = fs) :
    fs.length = n
    ∧ fs.flatMap (fun e => e.2.rows) = df.rows
    ∧ (fs.map (fun e => e.2.rowCount)).sum = df.rows.length
    ∧ (∀ i, i < n → (fs.map (fun e => e.2.rowCount)).getD i 0
        = df.rows.length / n + if i < df.rows.length % n then 1 else 0)
    ∧ (∀ e ∈ fs, ∀ e' ∈ fs, e.2.rowCount ≤ e'.2.rowCount + 1) := by
  have hself : selectCols df df.cols = df := selectCols_self df hwf
  have hfs' : fs = ((arraySplit df.rows n).zip
      ((List.range n).map (partFileName offset (normExt ext)))).map
      (fun e => (root ++ [e.2], (⟨df.cols, e.1⟩ : Frame))) := by
    rw [← hfs, divideRun]
    simp [hself]
  have hsplitlen : (arraySplit df.rows n).length = n := arraySplit_length df.rows n
  have hziplen : ((arraySplit df.rows n).zip
      ((List.range n).map (partFileName offset (normExt ext)))).length = n := by
    rw [List.length_zip, hsplitlen, List.length_map, List.length_range, min_self]
  have hlen : fs.length = n := by rw [hfs', List.length_map, hziplen]
  have hcounts : fs.map (fun e => e.2.rowCount) = splitSizes df.rows.length n := by
    rw [hfs', List.map_map]
    have h1 : ((fun e : Path × Frame => e.2.rowCount) ∘
        (fun e : List (List Value) × String => (root ++ [e.2], (⟨df.cols, e.1⟩ : Frame))))
        = (fun e : List (List Value) × String => e.1.length) := rfl
    rw [h1]
    have hz : ∀ (l₁ : List (List (List Value))) (l₂ : List String), l₁.length = l₂.length →
        (l₁.zip l₂).map (fun e => e.1.length) = l₁.map List.length := by
      intro l₁
      induction l₁ with
      | nil => intro l₂ _; rfl
      | cons x xs ih =>
        intro l₂ hl
        cases l₂ with
        | nil => simp at hl
        | cons y ys => simp [ih ys (by simpa using hl)]
    rw [hz _ _ (by rw [hsplitlen, List.length_map, List.length_range])]
    exact splitBySizes_map_length _ _ (le_of_eq (splitSizes_sum _ _ hn))
  have hgetd : ∀ i, i < n → (fs.map (fun e => e.2.rowCount)).getD i 0
      = df.rows.length / n + if i < df.rows.length % n then 1 else 0 := by
    intro i hi
    rw [hcounts, splitSizes, getD_map_range n _ i hi]
  refine ⟨hlen, ?_, ?_, hgetd, ?_⟩
  · rw [hfs']
    rw [List.flatMap_def, List.map_map]
    have : ((fun e : Path × Frame => e.2.rows) ∘
        (fun e : List (List Value) × String => (root ++ [e.2], (⟨df.cols, e.1⟩ : Frame))))
        = Prod.fst := rfl
    rw [this, List.map_fst_zip _ _ (by rw [hsplitlen, List.length_map, List.length_range])]
    exact arraySplit_flatten df.rows n hn
  · rw [hcounts, splitSizes_sum _ _ hn]
  · have hbound : ∀ s ∈ splitSizes df.rows.length n,
        df.rows.length / n ≤ s ∧ s ≤ df.rows.length / n + 1 := by
      intro s hs
      rw [splitSizes] at hs
      rcases List.mem_map.mp hs with ⟨j, _, rfl⟩
      by_cases hj : j < df.rows.length % n
      · simp [hj]
      · simp [hj]
    intro e he e' he'
    have h1 : e.2.rowCount ∈ splitSizes df.rows.length n := by
      rw [← hcounts]
      exact List.mem_map.mpr ⟨e, he, rfl⟩
    have h2 : e'.2.rowCount ∈ splitSizes df.rows.length n := by
      rw [← hcounts]
      exact List.mem_map.mpr ⟨e', he', rfl⟩
    have := hbound _ h1
    have := hbound _ h2
    omega

/-- Witness for C2: ten rows into four shards of sizes 3, 3, 2, 2. -/
theorem c2_balanced_split_witness :
    (Frame.mk ["k"] ((List.range 10).map (fun i => [Value.num i]))).WF
    ∧ (0 : Nat) < 4
    ∧ (divideRun (Frame.mk ["k"] ((List.range 10).map (fun i => [Value.num i])))
        ["d"] 4 0 none ".pq" false).files.flatMap (fun e => e.2.rows)
      = (Frame.mk ["k"] ((List.range 10).map (fun i => [Value.num i]))).rows := by
  refine ⟨⟨by decide, by decide⟩, by decide, ?_⟩
  exact (c2_balanced_split (Frame.mk ["k"] ((List.range 10).map (fun i => [Value.num i])))
    ["d"] 4 0 ".pq" _ ⟨by decide, by decide⟩ (by decide) rfl).2.1

/-! ## Claim C4: column-group ordering and missing-group errors -/

theorem collect_eq (ls : Path → List Path) (root : Path)
    (cgroups rgroups : Option (List String)) (h : ls root ≠ []) :
    collect ls root cgroups rgroups = orderedDictOf
      (match cgroups with
       | none => sortBy id ((groupCnames (filterPaths (expand ls (ls root)) cgroups rgroups)).map Prod.fst)
       | some ks => ks)
      (groupCnames (filterPaths (expand ls (ls root)) cgroups rgroups)) := by
  rw [collect, if_neg (by simpa [List.isEmpty_iff] using h)]
  rfl

theorem except_map_ok {ε α β : Type} (f : α → β) (e : Except ε α) (b : β)
    (h : e.map f = .ok b) : ∃ a, e = .ok a ∧ f a = b := by
  cases e with
  | error e' => simp [Except.map] at h
  | ok a => exact ⟨a, rfl, by simpa [Except.map] using h⟩

theorem except_map_error {ε α β : Type} (f : α → β) (e : Except ε α) (err : ε) :
    e.map f = .error err ↔ e = .error err := by
  cases e <;> simp [Except.map]

theorem forall₂_fst_eq {α β ε : Type} {f : α → Except ε (α × β)} :
    ∀ {l : List α} {out : List (α × β)},
      List.Forall₂ (fun a b => f a = .ok b) l out →
      (∀ a b, f a = .ok b → b.1 = a) → out.map Prod.fst = l := by
  intro l out h hf
  induction h with
  | nil => rfl
  | cons hfa _ ih => simp [hf _ _ hfa, ih]

theorem map_key_dedupByAux {α : Type} (key : α → String) :
    ∀ (l : List α) (seen : List String),
      (dedupByAux key seen l).map key = dedupByAux id seen (l.map key) := by
  intro l
  induction l with
  | nil => intro seen; rfl
  | cons x xs ih =>
    intro seen
    rw [List.map_cons, dedupByAux, dedupByAux]
    by_cases hx : key x ∈ seen
    · rw [if_pos hx, if_pos (by simpa using hx), ih]
    · rw [if_neg hx, if_neg (by simpa using hx), List.map_cons, ih]
      rfl

theorem map_fst_dedupBy {β : Type} (l : List (String × β)) :
    (dedupBy Prod.fst l).map Prod.fst = dedupBy id (l.map Prod.fst) := by
  rw [dedupBy, dedupBy, map_key_dedupByAux]

theorem dedupByAux_sublist {α : Type} (key : α → String) :
    ∀ (l : List α) (seen : List String), (dedupByAux key seen l).Sublist l := by
  intro l
  induction l with
  | nil => intro seen; exact List.Sublist.refl _
  | cons x xs ih =>
    intro seen
    rw [dedupByAux]
    by_cases hx : key x ∈ seen
    · rw [if_pos hx]
      exact (ih seen).cons x
    · rw [if_neg hx]
      exact (ih (key x :: seen)).cons₂ x

theorem orderedDictOf_lookup_fn (grouped : Grouping) :
    ∀ (k : String) (b : String × List Path),
      (match grouped.lookup k with
       | some ps => Except.ok (k, ps)
       | none => Except.error (PyErr.keyError k) : Except PyErr (String × List Path)) = .ok b
      → b.1 = k := by
  intro k b h
  cases hl : grouped.lookup k with
  | some ps => rw [hl] at h; cases h; rfl
  | none => rw [hl] at h; cases h

theorem orderedDictOf_ok_map_fst (keys : List String) (grouped : Grouping)
    (g : Grouping) (h : orderedDictOf keys grouped = .ok g) :
    g.map Prod.fst = dedupBy id keys := by
  rw [orderedDictOf] at h
  obtain ⟨out, hm, hg⟩ := except_map_ok (dedupBy Prod.fst) _ g h
  have h1 := forall₂_fst_eq (mapM_ok_forall₂ _ _ out hm) (orderedDictOf_lookup_fn grouped)
  rw [← hg, map_fst_dedupBy, h1]

theorem orderedDictOf_error_of_miss :
    ∀ (keys : List String) (grouped : Grouping),
      (∃ k ∈ keys, grouped.lookup k = none) →
      ∃ k', orderedDictOf keys grouped = .error (.keyError k') := by
  intro keys
  induction keys with
  | nil =>
    intro grouped h
    simp at h
  | cons k keys' ih =>
    intro grouped h
    rw [orderedDictOf, List.mapM_cons]
    cases hl : grouped.lookup k with
    | none =>
      exact ⟨k, by simp [hl, Bind.bind, Except.bind, Except.map]⟩
    | some ps =>
      have hmiss : ∃ k' ∈ keys', grouped.lookup k' = none := by
        rcases h with ⟨k0, hk0, hl0⟩
        rcases List.mem_cons.mp hk0 with rfl | hk0
        · rw [hl0] at hl; cases hl
        · exact ⟨k0, hk0, hl0⟩
      rcases ih grouped hmiss with ⟨k', hk'⟩
      rw [orderedDictOf] at hk'
      have hm' := (except_map_error _ _ _).mp hk'
      refine ⟨k', ?_⟩
      simp only [orderedDictOf, List.mapM_cons, hl, Bind.bind, Except.bind, hm',
        Except.map]

/-- C4: with an explicit `cgroups` list the Grouping emits buckets in
exactly that order, and a requested name with no matching files raises
(the `KeyError` of `accessed[k]`); with `cgroups=None` the buckets come
out in ascending alphabetic order of column-group name. -/
theorem c4_cgroup_order (ls : Path → List Path) (root : Path)
    (rgroups : Option (List String)) (ks : List String) (hks : ks.Nodup) :
    (∀ g, collect ls root (some ks) rgroups = .ok g → g.map Prod.fst = ks)
    ∧ (ls root ≠ [] →
        (∃ k ∈ ks, k ∉ (groupCnames (filterPaths (expand ls (ls root)) (some ks) rgroups)).map Prod.fst) →
        ∃ k', collect ls root (some ks) rgroups = .error (.keyError k'))
    ∧ (∀ g, collect ls root none rgroups = .ok g →
        List.Sorted (· ≤ ·) (g.map Prod.fst)) := by
  refine ⟨?_, ?_, ?_⟩
  · intro g hg
    have hne : ls root ≠ [] := by
      intro h
      rw [collect, if_pos (by simp [h])] at hg
      cases hg
    rw [collect_eq ls root (some ks) rgroups hne] at hg
    have := orderedDictOf_ok_map_fst ks _ g hg
    rw [this]
    apply dedupBy_eq_self
    simpa [List.Nodup] using hks
  · intro hne ⟨k, hk, hmiss⟩
    rw [collect_eq ls root (some ks) rgroups hne]
    exact orderedDictOf_error_of_miss ks _ ⟨k, hk, lookup_eq_none_of_not_mem_keys hmiss⟩
  · intro g hg
    have hne : ls root ≠ [] := by
      intro h
      rw [collect, if_pos (by simp [h])] at hg
      cases hg
    rw [collect_eq ls root none rgroups hne] at hg
    have := orderedDictOf_ok_map_fst _ _ g hg
    rw [this]
    have hsub := dedupByAux_sublist id
      (sortBy id ((groupCnames (filterPaths (expand ls (ls root)) none rgroups)).map Prod.fst)) []
    exact List.Pairwise.sublist hsub (sortBy_id_sorted _)

/-- Witness for C4: two column groups requested in the order
`["c1", "c0"]` come back in exactly that order. -/
theorem c4_cgroup_order_witness :
    (["c1", "c0"] : List String).Nodup
    ∧ collect
        (fun p : Path => if p = ["d"] then [["d", "c0", "a.pq"], ["d", "c1", "a.pq"]] else [])
        ["d"] (some ["c1", "c0"]) none
      = .ok [("c1", [["d", "c1", "a.pq"]]), ("c0", [["d", "c0", "a.pq"]])]
    ∧ ([("c1", [["d", "c1", "a.pq"]]), ("c0", [["d", "c0", "a.pq"]])] : Grouping).map Prod.fst
      = ["c1", "c0"] := by
  refine ⟨by decide, by decide, ?_⟩
  exact (c4_cgroup_order
    (fun p : Path => if p = ["d"] then [["d", "c0", "a.pq"], ["d", "c1", "a.pq"]] else [])
    ["d"] none ["c1", "c0"] (by decide)).1 _ (by decide)

/-! ## Claim C5: `iterate(axis=0)` enumerates the shared row groups -/

theorem forall₂_mem_right {α β : Type} {R : α → β → Prop} :
    ∀ {l : List α} {out : List β}, List.Forall₂ R l out →
      ∀ b ∈ out, ∃ a ∈ l, R a b := by
  intro l out h
  induction h with
  | nil => intro b hb; simp at hb
  | cons hr _ ih =>
    intro b hb
    rcases List.mem_cons.mp hb with rfl | hb
    · exact ⟨_, by simp, hr⟩
    · rcases ih b hb with ⟨a, ha, hab⟩
      exact ⟨a, by simp [ha], hab⟩

theorem rgroupJoin_fst {how : MergeHow} {readDf : Path → Frame} {g : Grouping}
    {r : String} {b : String × (List Warning × Frame)}
    (h : (rgroupJoin how readDf g r).map (fun t => (r, t)) = .ok b) :
    b.1 = r ∧ rgroupJoin how readDf g b.1 = .ok b.2 := by
  cases hj : rgroupJoin how readDf g r with
  | error e => rw [hj] at h; cases h
  | ok t =>
    rw [hj] at h
    cases h
    exact ⟨rfl, hj⟩

/-- C5: `iterate(axis=0)` enumerates exactly the row-group names common
to every column group of the Grouping — a file present in only some
column groups is skipped — in ascending lexical order, and yields for
each such name the merged join of the one member file per column group
(the `setEnum` oracle is any enumeration of a Python set's contents,
i.e. any permutation). -/
theorem c5_shared_rgroup_intersection (setEnum : List String → List String)
    (ls : Path → List Path) (root : Path) (cgroups rgroups : Option (List String))
    (readDf : Path → Frame) (how : MergeHow) (g : Grouping)
    (out : List (String × (List Warning × Frame)))
    (hperm : ∀ l : List String, (setEnum l).Perm l)
    (hc : collect ls root cgroups rgroups = .ok g)
    (hi : iterate0 setEnum ls root cgroups rgroups readDf how = .ok out) :
    (∀ r : String, r ∈ out.map Prod.fst ↔ (g ≠ [] ∧ ∀ e ∈ g, ∃ p ∈ e.2, rnameOf p = r))
    ∧ List.Sorted (· ≤ ·) (out.map Prod.fst)
    ∧ (∀ x ∈ out, rgroupJoin how readDf g x.1 = .ok x.2) := by
  rw [iterate0] at hi
  rw [hc] at hi
  simp only [Bind.bind, Except.bind] at hi
  cases hs : sharedRgroups setEnum g with
  | error e => rw [hs] at hi; cases hi
  | ok rs =>
    rw [hs] at hi
    have hfa := mapM_ok_forall₂ _ _ _ hi
    have hfst : out.map Prod.fst = sortBy id rs :=
      forall₂_fst_eq hfa (fun a b hab => (rgroupJoin_fst hab).1)
    have hjoin : ∀ x ∈ out, rgroupJoin how readDf g x.1 = .ok x.2 := by
      intro x hx
      rcases forall₂_mem_right hfa x hx with ⟨a, _, hab⟩
      exact (rgroupJoin_fst hab).2
    refine ⟨?_, ?_, hjoin⟩
    · intro r
      rw [hfst, mem_sortBy]
      cases g with
      | nil => rw [sharedRgroups] at hs; cases hs
      | cons e₀ grest =>
        cases grest with
        | nil =>
          obtain ⟨c, ps⟩ := e₀
          rw [sharedRgroups] at hs
          cases hs
          simp [rnameOf]
        | cons e₁ grest' =>
          have hrs : Except.ok (setEnum (interRgroups (e₀ :: e₁ :: grest')))
              = (Except.ok rs : Except PyErr (List String)) := hs
          injection hrs with hrs'
          subst hrs'
          rw [(hperm _).mem_iff, interRgroups, List.mem_filter, mem_dedupBy_id]
          constructor
          · rintro ⟨hmem, hall⟩
            refine ⟨by simp, ?_⟩
            intro e he
            rcases List.mem_cons.mp he with rfl | he
            · rcases List.mem_map.mp hmem with ⟨p, hp, hpr⟩
              exact ⟨p, hp, hpr⟩
            · have := List.all_eq_true.mp hall e he
              rw [List.elem_iff] at this
              rcases List.mem_map.mp this with ⟨p', hp', hpr'⟩
              exact ⟨p', hp', hpr'⟩
          · rintro ⟨-, hall⟩
            refine ⟨?_, ?_⟩
            · rcases hall e₀ (by simp) with ⟨p, hp, hpr⟩
              exact List.mem_map.mpr ⟨p, hp, hpr⟩
            · rw [List.all_eq_true]
              intro e he
              rcases hall e (List.mem_cons_of_mem e₀ he) with ⟨p, hp, hpr⟩
              rw [List.elem_iff]
              exact List.mem_map.mpr ⟨p, hp, hpr⟩
    · rw [hfst]
      exact sortBy_id_sorted rs

/-- Witness for C5: two column groups, one with an extra third file; only
the two shared row-group names are enumerated, in ascending order, each
joined across both groups. -/
theorem c5_shared_rgroup_intersection_witness :
    collect
        (fun p : Path => if p = ["d"] then
          [["d", "c0", "a.pq"], ["d", "c0", "b.pq"], ["d", "c0", "extra.pq"],
           ["d", "c1", "a.pq"], ["d", "c1", "b.pq"]] else [])
        ["d"] none none
      = .ok [("c0", [["d", "c0", "a.pq"], ["d", "c0", "b.pq"], ["d", "c0", "extra.pq"]]),
             ("c1", [["d", "c1", "a.pq"], ["d", "c1", "b.pq"]])]
    ∧ iterate0 id
        (fun p : Path => if p = ["d"] then
          [["d", "c0", "a.pq"], ["d", "c0", "b.pq"], ["d", "c0", "extra.pq"],
           ["d", "c1", "a.pq"], ["d", "c1", "b.pq"]] else [])
        ["d"] none none (fun _ => ⟨["k"], [[.num 0]]⟩) .inner
      = .ok [("a.pq", ([], ⟨["k"], [[.num 0]]⟩)), ("b.pq", ([], ⟨["k"], [[.num 0]]⟩))]
    ∧ List.Sorted (· ≤ ·)
        (([("a.pq", (([] : List Warning), (⟨["k"], [[.num 0]]⟩ : Frame))),
           ("b.pq", ([], ⟨["k"], [[.num 0]]⟩))]).map Prod.fst) := by
  have h := c5_shared_rgroup_intersection id
    (fun p : Path => if p = ["d"] then
      [["d", "c0", "a.pq"], ["d", "c0", "b.pq"], ["d", "c0", "extra.pq"],
       ["d", "c1", "a.pq"], ["d", "c1", "b.pq"]] else [])
    ["d"] none none (fun _ => ⟨["k"], [[.num 0]]⟩) .inner
    [("c0", [["d", "c0", "a.pq"], ["d", "c0", "b.pq"], ["d", "c0", "extra.pq"]]),
     ("c1", [["d", "c1", "a.pq"], ["d", "c1", "b.pq"]])]
    [("a.pq", ([], ⟨["k"], [[.num 0]]⟩)), ("b.pq", ([], ⟨["k"], [[.num 0]]⟩))]
    (fun l => List.Perm.refl l) (by decide) (by decide)
  exact ⟨by decide, by decide, h.2.1⟩

/-! ## Claim C6: `partitioned` versus `iterate(axis=0)` -/

theorem forall₂_mem_left {α β : Type} {R : α → β → Prop} :
    ∀ {l : List α} {out : List β}, List.Forall₂ R l out →
      ∀ a ∈ l, ∃ b ∈ out, R a b := by
  intro l out h
  induction h with
  | nil => intro a ha; simp at ha
  | cons hr _ ih =>
    intro a ha
    rcases List.mem_cons.mp ha with rfl | ha
    · exact ⟨_, by simp, hr⟩
    · rcases ih a ha with ⟨b, hb, hab⟩
      exact ⟨b, by simp [hb], hab⟩

theorem mapM_ok_forall {α β ε : Type} (f : α → Except ε β)
    (l : List α) (out : List β) (h : l.mapM f = .ok out) :
    ∀ a ∈ l, ∃ b, f a = .ok b := by
  intro a ha
  rcases forall₂_mem_left (mapM_ok_forall₂ f l out h) a ha with ⟨b, _, hab⟩
  exact ⟨b, hab⟩

/-- C6 (amended): `partitioned` yields the same collection of joined
per-row-group tables as `iterate(axis=0)` — the partition list is a
permutation of `iterate`'s table sequence — but not necessarily in the
same order: `_shared_rgroups` hands `partitioned` an unsorted Python set
that it enumerates directly, while `iterate` sorts the names first. -/
theorem c6_partitioned_perm (setEnum : List String → List String)
    (ls : Path → List Path) (root : Path) (cgroups rgroups : Option (List String))
    (readDf : Path → Frame) (how : MergeHow)
    (out : List (String × (List Warning × Frame))) (parts : List (List Warning × Frame))
    (hi : iterate0 setEnum ls root cgroups rgroups readDf how = .ok out)
    (hp : partitioned setEnum ls root cgroups rgroups readDf how = .ok parts) :
    parts.Perm (out.map Prod.snd) := by
  rw [iterate0] at hi
  rw [partitioned] at hp
  cases hcol : collect ls root cgroups rgroups with
  | error e =>
    rw [hcol] at hi
    simp only [Bind.bind, Except.bind] at hi
    cases hi
  | ok g =>
    rw [hcol] at hi hp
    simp only [Bind.bind, Except.bind] at hi hp
    cases hs : sharedRgroups setEnum g with
    | error e =>
      rw [hs] at hi
      cases hi
    | ok rs =>
      rw [hs] at hi hp
      have dflt : List Warning × Frame := ([], ⟨[], []⟩)
      have hparts := mapM_ok_eq_map _ (([], ⟨[], []⟩) : List Warning × Frame) _ _ hp
      have hout := mapM_ok_eq_map _ (("", ([], ⟨[], []⟩)) : String × (List Warning × Frame)) _ _ hi
      have hall := mapM_ok_forall _ _ _ hi
      have houtsnd : out.map Prod.snd
          = (sortBy id rs).map (fun r =>
              exOk (([], ⟨[], []⟩) : List Warning × Frame) (rgroupJoin how readDf g r)) := by
        rw [hout, List.map_map]
        apply List.map_congr_left
        intro r hr
        rcases hall r hr with ⟨b, hb⟩
        rcases except_map_ok _ _ _ hb with ⟨t, ht, hbt⟩
        simp [Function.comp, ht, Except.map, exOk]
      rw [hparts, houtsnd]
      exact ((sortBy_perm id rs).map _).symm

/-- C6 counterexample: the claim as stated — same table sequence
*including enumeration order* — is false: with a set enumeration that
happens to come out reversed (any permutation is a legal Python set
order), `partitioned` emits the two partitions in the opposite order
from `iterate(axis=0)` on the same listing. -/
theorem c6_order_counterexample :
    ¬ (∀ (setEnum : List String → List String),
        (∀ l : List String, (setEnum l).Perm l) →
        ∀ (ls : Path → List Path) (root : Path) (cgroups rgroups : Option (List String))
          (readDf : Path → Frame) (how : MergeHow)
          (out : List (String × (List Warning × Frame)))
          (parts : List (List Warning × Frame)),
          iterate0 setEnum ls root cgroups rgroups readDf how = .ok out →
          partitioned setEnum ls root cgroups rgroups readDf how = .ok parts →
          parts = out.map Prod.snd) := by
  intro h
  have hrev : ∀ l : List String, ((fun l : List String => l.reverse) l).Perm l :=
    fun l => List.reverse_perm l
  have := h (fun l => l.reverse) hrev
    (fun p : Path => if p = ["d"] then
      [["d", "c0", "a.pq"], ["d", "c0", "b.pq"], ["d", "c1", "a.pq"], ["d", "c1", "b.pq"]]
     else [])
    ["d"] none none
    (fun p => if rnameOf p = "a.pq" then ⟨["k"], [[.num 0]]⟩ else ⟨["k"], [[.num 1]]⟩)
    .inner
    [("a.pq", ([], ⟨["k"], [[.num 0]]⟩)), ("b.pq", ([], ⟨["k"], [[.num 1]]⟩))]
    [([], ⟨["k"], [[.num 1]]⟩), ([], ⟨["k"], [[.num 0]]⟩)]
    (by decide) (by decide)
  exact absurd this (by decide)

/-- Witness for the amended C6 at the same concrete input: the partition
list is a permutation of `iterate`'s table sequence. -/
theorem c6_partitioned_perm_witness :
    iterate0 (fun l : List String => l.reverse)
        (fun p : Path => if p = ["d"] then
          [["d", "c0", "a.pq"], ["d", "c0", "b.pq"], ["d", "c1", "a.pq"], ["d", "c1", "b.pq"]]
         else [])
        ["d"] none none
        (fun p => if rnameOf p = "a.pq" then ⟨["k"], [[.num 0]]⟩ else ⟨["k"], [[.num 1]]⟩)
        .inner
      = .ok [("a.pq", ([], ⟨["k"], [[.num 0]]⟩)), ("b.pq", ([], ⟨["k"], [[.num 1]]⟩))]
    ∧ partitioned (fun l : List String => l.reverse)
        (fun p : Path => if p = ["d"] then
          [["d", "c0", "a.pq"], ["d", "c0", "b.pq"], ["d", "c1", "a.pq"], ["d", "c1", "b.pq"]]
         else [])
        ["d"] none none
        (fun p => if rnameOf p = "a.pq" then ⟨["k"], [[.num 0]]⟩ else ⟨["k"], [[.num 1]]⟩)
        .inner
      = .ok [([], ⟨["k"], [[.num 1]]⟩), ([], ⟨["k"], [[.num 0]]⟩)]
    ∧ ([([], ⟨["k"], [[.num 1]]⟩), ([], ⟨["k"], [[.num 0]]⟩)] :
        List (List Warning × Frame)).Perm
        (([("a.pq", ([], ⟨["k"], [[.num 0]]⟩)),
           ("b.pq", ([], ⟨["k"], [[.num 1]]⟩))] :
          List (String × (List Warning × Frame))).map Prod.snd) := by
  refine ⟨by decide, by decide, ?_⟩
  exact c6_partitioned_perm (fun l => l.reverse)
    (fun p : Path => if p = ["d"] then
      [["d", "c0", "a.pq"], ["d", "c0", "b.pq"], ["d", "c1", "a.pq"], ["d", "c1", "b.pq"]]
     else [])
    ["d"] none none
    (fun p => if rnameOf p = "a.pq" then ⟨["k"], [[.num 0]]⟩ else ⟨["k"], [[.num 1]]⟩)
    .inner
    [("a.pq", ([], ⟨["k"], [[.num 0]]⟩)), ("b.pq", ([], ⟨["k"], [[.num 1]]⟩))]
    [([], ⟨["k"], [[.num 1]]⟩), ([], ⟨["k"], [[.num 0]]⟩)]
    (by decide) (by decide)

/-! ## Claim C1: `assemble ∘ divide` round trip -/

theorem normExt_contains_dot (ext : String) : '.' ∈ (normExt ext).toList := by
  rw [normExt]
  by_cases h : ext.toList.head? = some '.'
  · rw [if_pos h]
    cases hx : ext.toList with
    | nil =>
      rw [hx] at h
      simp at h
    | cons c cs =>
      rw [hx] at h
      simp only [List.head?_cons, Option.some.injEq] at h
      rw [h]
      simp
  · rw [if_neg h]
    show '.' ∈ ("." ++ ext).toList
    rw [toList_append]
    simp

theorem hasExt_part (dir : Path) (ext : String) (i : Nat) :
    hasExt (dir ++ [partFileName 0 (normExt ext) i]) = true := by
  rw [hasExt, basenameOf, List.getLastD_concat]
  have hshape : (partFileName 0 (normExt ext) i).toList
      = 'p' :: ('a' :: 'r' :: 't' :: '_' :: ((pad5 (i + 0)).toList ++ (normExt ext).toList)) := by
    rw [partFileName, toList_append, toList_append]
    rfl
  rw [hshape, List.dropWhile_cons, if_neg (by decide)]
  rw [List.elem_iff]
  have hdot : '.' ∈ (normExt ext).toList := normExt_contains_dot ext
  simp only [List.mem_cons, List.mem_append]
  exact Or.inr (Or.inr (Or.inr (Or.inr (Or.inr (Or.inr hdot)))))

theorem flatMap_of_forall_singleton {α : Type} (f : α → List α) :
    ∀ l : List α, (∀ p ∈ l, f p = [p]) → l.flatMap f = l := by
  intro l
  induction l with
  | nil => intro _; rfl
  | cons x xs ih =>
    intro h
    rw [List.flatMap_cons, h x (by simp), ih (fun p hp => h p (by simp [hp]))]
    rfl

/-- C1: writing a well-formed frame with `divide(df, dir, n_rgroup = n)`
(no cgroups, `convert=False`, offset 0) and assembling the directory back
with the matching codec reconstructs the frame exactly: the rows were
partitioned contiguously, the zero-padded shard names sort back into
shard-index order, and the concatenation restores the original row order
(row index aside, which the model does not carry).  The storage oracle
`ls` lists exactly the files the divide wrote and `readDf` reads back
what was written into each. -/
theorem c1_divide_assemble_roundtrip (df : Frame) (dir : Path) (n : Nat) (ext : String)
    (ls : Path → List Path) (readDf : Path → Frame) (how : MergeHow)
    (hwf : df.WF) (hn : 0 < n) (hmax : n ≤ 100000)
    (hls : ls dir = (divideRun df dir n 0 none ext false).files.map Prod.fst)
    (hread : ∀ e ∈ (divideRun df dir n 0 none ext false).files, readDf e.1 = e.2) :
    assemble ls dir none none readDf how = .ok ([], df) := by
  have hself : selectCols df df.cols = df := selectCols_self df hwf
  have hfiles : (divideRun df dir n 0 none ext false).files
      = ((arraySplit df.rows n).zip
          ((List.range n).map (partFileName 0 (normExt ext)))).map
          (fun e => (dir ++ [e.2], (⟨df.cols, e.1⟩ : Frame))) := by
    rw [divideRun]
    simp [hself]
  have hlzip : (arraySplit df.rows n).length
      = ((List.range n).map (partFileName 0 (normExt ext))).length := by
    rw [arraySplit_length, List.length_map, List.length_range]
  have hpaths : (divideRun df dir n 0 none ext false).files.map Prod.fst
      = (List.range n).map (fun i => dir ++ [partFileName 0 (normExt ext) i]) := by
    rw [hfiles, List.map_map]
    have h1 : (Prod.fst ∘ fun e : List (List Value) × String =>
        (dir ++ [e.2], (⟨df.cols, e.1⟩ : Frame)))
        = (fun s : String => dir ++ [s]) ∘ Prod.snd := rfl
    rw [h1, ← List.map_map, List.map_snd_zip _ _ (le_of_eq hlzip.symm), List.map_map]
    rfl
  set wp := (List.range n).map (fun i => dir ++ [partFileName 0 (normExt ext) i]) with hwp
  have hplt : List.Pairwise (fun a b : Path => Path.render a < Path.render b) wp :=
    writtenPaths_pairwise_lt dir (normExt ext) n hmax
  have hple : List.Pairwise (fun a b : Path => Path.render a ≤ Path.render b) wp :=
    hplt.imp (fun h => le_of_lt h)
  have hpne : List.Pairwise (fun a b : Path => Path.render a ≠ Path.render b) wp :=
    hplt.imp (fun h => ne_of_lt h)
  have hext : ∀ p ∈ wp, hasExt p = true := by
    intro p hp
    rw [hwp] at hp
    rcases List.mem_map.mp hp with ⟨i, _, rfl⟩
    exact hasExt_part dir ext i
  have hexpand : expand ls (ls dir) = wp := by
    rw [expand, hls, hpaths]
    rw [flatMap_of_forall_singleton _ wp (fun p hp => by simp [hext p hp])]
    rw [List.filter_eq_self.mpr hext]
    rw [dedupBy_eq_self _ _ hpne, sortBy_eq_self _ _ hple]
  have hcname : ∀ p ∈ wp, cnameOf p = basenameOf dir := by
    intro p hp
    rw [hwp] at hp
    rcases List.mem_map.mp hp with ⟨i, _, rfl⟩
    rw [cnameOf, List.dropLast_concat]
  have hwpne : wp ≠ [] := by
    rw [hwp]
    simp only [ne_eq, List.map_eq_nil_iff, List.range_eq_nil]
    omega
  have hgroup : groupCnames wp = [(basenameOf dir, wp)] := by
    cases hwpc : wp with
    | nil => exact absurd hwpc hwpne
    | cons p ps =>
      rw [← hwpc, hwpc, groupCnames_const (basenameOf dir) p ps
        (fun q hq => hcname q (hwpc ▸ hq))]
  have hfilterid : ∀ l : List Path, filterPaths l none none = l := by
    intro l
    rw [filterPaths]
    apply List.filter_eq_self.mpr
    intro p _
    rfl
  have hcollect : collect ls dir none none = .ok [(basenameOf dir, wp)] := by
    rw [collect_eq ls dir none none (by rw [hls, hpaths]; exact hwpne)]
    rw [hfilterid, hexpand, hgroup]
    simp [sortBy, insertBy, orderedDictOf, List.mapM, List.mapM.loop, List.lookup_cons,
      dedupBy, dedupByAux, Bind.bind, Except.bind, pure, Except.pure, Except.map]
  have hmapread : wp.map readDf
      = (arraySplit df.rows n).map (fun ch => (⟨df.cols, ch⟩ : Frame)) := by
    have h1 : wp.map readDf
        = ((divideRun df dir n 0 none ext false).files.map Prod.fst).map readDf := by
      rw [hpaths, hwp]
    rw [h1, List.map_map]
    have h2 : (divideRun df dir n 0 none ext false).files.map (readDf ∘ Prod.fst)
        = (divideRun df dir n 0 none ext false).files.map Prod.snd := by
      apply List.map_congr_left
      intro e he
      exact hread e he
    rw [h2, hfiles, List.map_map]
    have h3 : (Prod.snd ∘ fun e : List (List Value) × String =>
        (dir ++ [e.2], (⟨df.cols, e.1⟩ : Frame)))
        = (fun ch => (⟨df.cols, ch⟩ : Frame)) ∘ Prod.fst := rfl
    rw [h3, ← List.map_map, List.map_fst_zip _ _ (le_of_eq hlzip)]
  have hconcat : concatFrames (wp.map readDf) = (⟨df.cols, df.rows⟩ : Frame) := by
    rw [hmapread]
    cases hch : arraySplit df.rows n with
    | nil =>
      have := arraySplit_length df.rows n
      rw [hch] at this
      simp at this
      omega
    | cons c cs =>
      simp only [List.map_cons, concatFrames]
      have hflat : ((⟨df.cols, c⟩ : Frame) :: cs.map (fun ch => (⟨df.cols, ch⟩ : Frame))).flatMap
          Frame.rows = (c :: cs).flatten := by
        rw [List.flatMap_cons]
        congr 1
        rw [List.flatMap_def, List.map_map]
        rw [show (Frame.rows ∘ fun ch : List (List Value) => (⟨df.cols, ch⟩ : Frame)) = id from rfl,
          List.map_id]
      rw [hflat, ← hch, arraySplit_flatten df.rows n hn]
  rw [assemble]
  rw [hcollect]
  simp only [Bind.bind, Except.bind, List.map_cons, List.map_nil]
  rw [hconcat]
  rw [mergeAll]
  rfl

/-- Witness for C1: a three-row, two-column frame split into two shards
and assembled back. -/
theorem c1_divide_assemble_roundtrip_witness :
    (Frame.mk ["k", "x"] [[.num 0, .str "a"], [.num 1, .str "b"], [.num 2, .str "c"]]).WF
    ∧ assemble
        (fun p : Path => if p = ["data"] then
          [["data", "part_00000.pq"], ["data", "part_00001.pq"]] else [])
        ["data"] none none
        (fun p : Path =>
          if p = ["data", "part_00000.pq"] then
            ⟨["k", "x"], [[.num 0, .str "a"], [.num 1, .str "b"]]⟩
          else ⟨["k", "x"], [[.num 2, .str "c"]]⟩)
        .inner
      = .ok ([], Frame.mk ["k", "x"]
          [[.num 0, .str "a"], [.num 1, .str "b"], [.num 2, .str "c"]]) := by
  refine ⟨⟨by decide, by decide⟩, ?_⟩
  exact c1_divide_assemble_roundtrip
    (Frame.mk ["k", "x"] [[.num 0, .str "a"], [.num 1, .str "b"], [.num 2, .str "c"]])
    ["data"] 2 ".pq"
    (fun p : Path => if p = ["data"] then
      [["data", "part_00000.pq"], ["data", "part_00001.pq"]] else [])
    (fun p : Path =>
      if p = ["data", "part_00000.pq"] then
        ⟨["k", "x"], [[.num 0, .str "a"], [.num 1, .str "b"]]⟩
      else ⟨["k", "x"], [[.num 2, .str "c"]]⟩)
    .inner ⟨by decide, by decide⟩ (by decide) (by decide) (by decide) (by decide)

end Blocks
